import Mathlib

/-!
# ii-go message codec (`ii/msg.go`): shallow embedding and verified properties

Go strings are byte sequences, so a string is a list of bytes and `len` is the
list length.  The Go standard-library functions used by `msg.go` (`strings.*`,
`encoding/base64`, `fmt.Sprint`, `fmt.Sscanf`) are embedded as executable
functions following the behaviour of the Go implementation.  `sha256.Sum256`
is a parameter returning a 32-byte array and `time.Now().Unix()` is a
parameter `now`.  A run-time panic (index out of range, write to a nil map) is
the result `none` or `Fault.panic`.  The calls to the package-level logger
`Trace`, which is declared outside `msg.go`, are left out: they do not change
a returned value.
-/

set_option maxRecDepth 100000

namespace ii

/-! ## Strings -/

/-- One byte of a Go string. -/
abbrev Byte := Fin 256

/-- Go `string`: a sequence of bytes. -/
abbrev Str := List Byte

/-- Bytes of an ASCII string literal. -/
def str (s : String) : Str := s.toList.map fun c => Fin.ofNat c.toNat

/-- Newline byte. -/
def NL : Byte := 10
/-- Carriage return byte. -/
def CR : Byte := 13
/-- Space byte. -/
def SP : Byte := 32
/-- Plus sign. -/
def PLUS : Byte := 43
/-- Minus sign. -/
def MINUS : Byte := 45
/-- Full stop. -/
def DOT : Byte := 46
/-- Slash. -/
def SLASH : Byte := 47
/-- Colon. -/
def COLON : Byte := 58
/-- Base64 padding character. -/
def PAD : Byte := 61
/-- Letter A. -/
def UA : Byte := 65
/-- Letter Z. -/
def UZ : Byte := 90

/-- Go `strings.Contains(s, sub)` for a one-byte `sub`. -/
def Contains (s : Str) (c : Byte) : Bool := s.contains c

/-- Go `strings.Split(s, sep)` for a one-byte separator: the pieces between
the occurrences of `sep`; the result always has at least one element. -/
def Split (s : Str) (sep : Byte) : List Str :=
  match s with
  | [] => [[]]
  | c :: cs =>
    if c = sep then [] :: Split cs sep
    else
      match Split cs sep with
      | [] => [[c]]
      | l :: ls => (c :: l) :: ls

/-- Go `strings.Join(elems, sep)`. -/
def Join (elems : List Str) (sep : Str) : Str :=
  match elems with
  | [] => []
  | [a] => a
  | a :: b :: rest => a ++ sep ++ Join (b :: rest) sep

/-- Go `strings.Trim(s, cutset)` for a one-byte cutset: all leading and
trailing occurrences of the byte are removed. -/
def Trim (s : Str) (c : Byte) : Str :=
  ((s.dropWhile (· == c)).reverse.dropWhile (· == c)).reverse

/-- Go `strings.HasPrefix(s, p)`. -/
def HasPrefix (s p : Str) : Bool := p.isPrefixOf s

/-- Go `strings.TrimSuffix(s, suffix)`: `s` without the trailing `suffix`,
or `s` itself when it does not end in `suffix`. -/
def TrimSuffix (s suffix : Str) : Str :=
  if suffix.isSuffixOf s then s.take (s.length - suffix.length) else s

/-- Go `strings.Replace(s, old, new, -1)` for one-byte `old` and `new`. -/
def Replace (s : Str) (old new : Byte) : Str :=
  s.map fun c => if c = old then new else c

/-- Go slice expression `s[lo:hi]` on a string; `none` is the run-time panic
for bounds out of range. -/
def slice (s : Str) (lo hi : Nat) : Option Str :=
  if lo ≤ hi ∧ hi ≤ s.length then some ((s.take hi).drop lo) else none

/-! ## encoding/base64 -/

/-- Alphabet of `base64.StdEncoding`. -/
def stdAlphabet : Str :=
  str "ABCDEFGHIJKLMNOPQRSTUVWXYZabcdefghijklmnopqrstuvwxyz0123456789+/"

/-- Alphabet of `base64.URLEncoding`. -/
def urlAlphabet : Str :=
  str "ABCDEFGHIJKLMNOPQRSTUVWXYZabcdefghijklmnopqrstuvwxyz0123456789-_"

/-- Character that encodes the 6-bit value `n`. -/
def encChar (alpha : Str) (n : Nat) : Byte := alpha.getD n 0

/-- Decode map of an encoding: the 6-bit value of a character of the
alphabet, `none` for every other byte. -/
def decChar (alpha : Str) (c : Byte) : Option Nat :=
  if alpha.indexOf c < 64 then some (alpha.indexOf c) else none

/-- Go `Encoding.EncodeToString` with padding: three bytes become four
characters, a final group of one or two bytes is padded with `=`. -/
def b64encode (alpha : Str) (src : Str) : Str :=
  match src with
  | [] => []
  | [a] => [encChar alpha (a.val / 4), encChar alpha (a.val % 4 * 16), PAD, PAD]
  | [a, b] =>
    [encChar alpha (a.val / 4), encChar alpha (a.val % 4 * 16 + b.val / 16),
     encChar alpha (b.val % 16 * 4), PAD]
  | a :: b :: c :: rest =>
    encChar alpha (a.val / 4) :: encChar alpha (a.val % 4 * 16 + b.val / 16) ::
    encChar alpha (b.val % 16 * 4 + c.val / 64) :: encChar alpha (c.val % 64) ::
    b64encode alpha rest

/-- First byte of a decoded quantum with 6-bit values `x y`. -/
def quantum0 (x y : Nat) : Byte := Fin.ofNat (x * 4 + y / 16)
/-- Second byte of a decoded quantum. -/
def quantum1 (y z : Nat) : Byte := Fin.ofNat (y % 16 * 16 + z / 4)
/-- Third byte of a decoded quantum. -/
def quantum2 (z w : Nat) : Byte := Fin.ofNat (z % 4 * 64 + w)

/-- Quanta of `Encoding.Decode` on input from which the ignored `\r` and
`\n` bytes were removed: groups of four alphabet characters, the last group
may end in `==` or `=`; anything else is a `CorruptInputError` (`none`). -/
def decodeQuanta (alpha : Str) (src : Str) : Option Str :=
  match src with
  | [] => some []
  | a :: b :: c :: d :: rest =>
    match decChar alpha a, decChar alpha b, decChar alpha c, decChar alpha d with
    | some x, some y, some z, some w =>
      match decodeQuanta alpha rest with
      | some out => some (quantum0 x y :: quantum1 y z :: quantum2 z w :: out)
      | none => none
    | some x, some y, some z, none =>
      if d = PAD ∧ rest = [] then some [quantum0 x y, quantum1 y z] else none
    | some x, some y, none, _ =>
      if c = PAD ∧ d = PAD ∧ rest = [] then some [quantum0 x y] else none
    | _, _, _, _ => none
  | _ => none

/-- Go `Encoding.DecodeString` for a padded, non-strict encoding: `\r` and
`\n` are skipped wherever they occur; `none` is the decode error. -/
def b64decode (alpha : Str) (s : Str) : Option Str :=
  decodeQuanta alpha (s.filter fun c => c != NL && c != CR)

/-! ## Identifiers -/

/-- Result of `sha256.Sum256`: a `[32]byte` array. -/
abbrev Digest := { d : Str // d.length = 32 }

/-- Source `MsgId`: base64 of the SHA-256 of the text with `+` and `/`
replaced, cut to the first 20 bytes; `none` is the panic of `id[0:20]`. -/
def MsgId (Sum256 : Str → Digest) (msg : Str) : Option Str :=
  let h := Sum256 msg
  let id := b64encode stdAlphabet h.val
  let id := Replace id PLUS UA
  let id := Replace id SLASH UZ
  slice id 0 20

/-- Source `IsMsgId`. -/
def IsMsgId (id : Str) : Bool :=
  id.length == 20 && !Contains id DOT

/-- Source `IsEcho`. -/
def IsEcho (e : Str) : Bool :=
  let l := e.length
  decide (l ≥ 3) && decide (l ≤ 120) && Contains e DOT

/-! ## fmt -/

/-- ASCII digit for `d < 10`. -/
def digitChar (d : Nat) : Byte := Fin.ofNat (48 + d)

/-- Decimal digits of `n`, most significant first (`fuel` bounds the number
of digits). -/
def formatNatAux (fuel n : Nat) : Str :=
  match fuel with
  | 0 => []
  | fuel + 1 =>
    if n < 10 then [digitChar n]
    else formatNatAux fuel (n / 10) ++ [digitChar (n % 10)]

/-- Decimal text of a natural number. -/
def formatNat (n : Nat) : Str := formatNatAux (n + 1) n

/-- Go `fmt.Sprint(d)` for an `int64`: the decimal text, with `-` for a
negative number. -/
def Sprint (d : Int) : Str :=
  if d < 0 then MINUS :: formatNat d.natAbs else formatNat d.natAbs

/-- Width in bytes of the space rune (as `fmt`'s `isSpace` defines it, newline
excluded) that starts `s` in UTF-8, or `0` when `s` does not start with one. -/
def spaceWidth (s : Str) : Nat :=
  match s with
  | [] => 0
  | c :: rest =>
    if c.val = 9 ∨ c.val = 11 ∨ c.val = 12 ∨ c.val = 13 ∨ c.val = 32 then 1
    else
      match c.val, rest.map Fin.val with
      | 0xC2, 0x85 :: _ => 2
      | 0xC2, 0xA0 :: _ => 2
      | 0xE1, 0x9A :: 0x80 :: _ => 3
      | 0xE2, 0x80 :: b :: _ =>
        if (0x80 ≤ b ∧ b ≤ 0x8A) ∨ b = 0xA8 ∨ b = 0xA9 ∨ b = 0xAF then 3 else 0
      | 0xE2, 0x81 :: 0x9F :: _ => 3
      | 0xE3, 0x80 :: 0x80 :: _ => 3
      | _, _ => 0

/-- Loop of `(*ss).SkipSpace` with `nlIsSpace = false`: leading space runes
are consumed, a newline is the error "unexpected newline" (`none`). -/
def skipSpaceAux (fuel : Nat) (s : Str) : Option Str :=
  match fuel with
  | 0 => some s
  | fuel + 1 =>
    if s.head? = some NL then none
    else if spaceWidth s = 0 then some s
    else skipSpaceAux fuel (s.drop (spaceWidth s))

/-- Go `(*ss).SkipSpace`. -/
def skipSpace (s : Str) : Option Str := skipSpaceAux s.length s

/-- Decimal digit test. -/
def isDigit (c : Byte) : Bool := decide (48 ≤ c.val) && decide (c.val ≤ 57)

/-- Value of a string of decimal digits. -/
def digitsValue (ds : Str) : Nat := ds.foldl (fun a c => a * 10 + (c.val - 48)) 0

/-- Range of `int64`. -/
def inInt64 (i : Int) : Prop := -9223372036854775808 ≤ i ∧ i ≤ 9223372036854775807

instance (i : Int) : Decidable (inInt64 i) := by unfold inInt64; infer_instance

/-- Go `fmt.Sscanf(s, "%d", &x)` for an `int64` target: skip leading space,
accept an optional sign, read the longest run of decimal digits (at least
one) and convert it with `strconv.ParseInt(tok, 10, 64)`; what follows the
digits is left unread.  `none` is the returned error.  The scanner's width
limit of `1 << 30` runes per operand is not modelled. -/
def SscanfInt (s : Str) : Option Int :=
  match skipSpace s with
  | none => none
  | some s1 =>
    let neg : Bool := s1.head? = some MINUS
    let s2 : Str := if s1.head? = some MINUS ∨ s1.head? = some PLUS then s1.tail else s1
    let ds := s2.takeWhile isDigit
    if ds = [] then none
    else
      let v : Int := if neg then -(digitsValue ds : Int) else (digitsValue ds : Int)
      if inInt64 v then some v else none

/-! ## Errors -/

/-- Go `error` values that the package returns. -/
inductive GoError where
  /-- Value of `errors.New(msg)`. -/
  | errorsNew (msg : Str)
  /-- A `base64.CorruptInputError` returned by `DecodeString`. -/
  | corruptInput
  /-- The error returned by `fmt.Sscanf`. -/
  | scanError
  deriving DecidableEq, Repr

/-- Abnormal outcome of a call: a returned error or a run-time panic. -/
inductive Fault where
  /-- The call returned `(nil, err)`. -/
  | error (e : GoError)
  /-- The call panicked. -/
  | panic
  deriving DecidableEq, Repr

/-- Go index expression `l[i]`; out of range is a panic. -/
def index {α : Type} (l : List α) (i : Nat) : Except Fault α :=
  match l[i]? with
  | some a => .ok a
  | none => .error .panic

/-! ## Data model -/

/-- Go `map[string]string` contents. -/
abbrev StrMap := Str → Option Str

/-- Go `make(map[string]string)`: the empty map. -/
def StrMap.empty : StrMap := fun _ => none

/-- Go map assignment `h[k] = v`. -/
def StrMap.set (h : StrMap) (k v : Str) : StrMap := fun x => if x = k then some v else h x

/-- Source `Tags`; `Hash = none` is the nil map. -/
structure Tags where
  Hash : Option StrMap
  List : List Str

/-- Source `Msg`. -/
structure Msg where
  MsgId : Str
  Tags : Tags
  Echo : Str
  Date : Int
  From : Str
  Addr : Str
  To : Str
  Subj : Str
  Text : Str

/-- Zero value of `Tags`. -/
def Tags.zero : Tags := ⟨none, []⟩

/-- Zero value of `Msg` (`var m Msg`). -/
def Msg.zero : Msg := ⟨[], Tags.zero, [], 0, [], [], [], [], []⟩

/-- Loop shared by `MakeTags` and `Tags.Add`:
`for i := 0; i < len(tags); i += 2 { t.Hash[tags[i]] = tags[i+1]; t.List = append(t.List, tags[i]) }`,
on the tokens from index `i` on.  `none` is a panic (`tags[i+1]` out of range
or assignment to an entry of a nil map). -/
def addPairs (tags : List Str) (t : Tags) : Option Tags :=
  match tags with
  | [] => some t
  | [_] => none
  | k :: v :: rest =>
    match t.Hash with
    | none => none
    | some h => addPairs rest ⟨some (h.set k v), t.List ++ [k]⟩

/-- Source `MakeTags`: both return values, `none` for a panic. -/
def MakeTags (s : Str) : Option (Tags × Option GoError) :=
  let t := Tags.zero
  let s := Trim s SP
  if s = [] then some (t, none)
  else
    let tags := Split s SLASH
    if tags.length % 2 ≠ 0 then some (t, some (.errorsNew (str "Wrong tags: " ++ s)))
    else
      match addPairs tags ⟨some StrMap.empty, t.List⟩ with
      | some t => some (t, none)
      | none => none

/-- Source `(*Tags).Add`: the tag set after the call and the returned error,
`none` for a panic. -/
def Tags.Add (t : Tags) (s : Str) : Option (Tags × Option GoError) :=
  let tags := Split s SLASH
  if tags.length % 2 ≠ 0 then some (t, some (.errorsNew (str "Wrong tags")))
  else
    match addPairs tags t with
    | some t => some (t, none)
    | none => none

/-- Source `Tags.String`. -/
def Tags.String (t : Tags) : Str :=
  match t.Hash with
  | none => []
  | some h =>
    let text := t.List.foldl
      (fun text n =>
        match h n with
        | some val => text ++ (n ++ [SLASH] ++ val ++ [SLASH])
        | none => text) []
    TrimSuffix text [SLASH]

/-- Source `(*Msg).String` on a non-nil receiver. -/
def Msg.String (m : Msg) : Str :=
  let tags := m.Tags.String
  Join [tags, m.Echo, Sprint m.Date, m.From, m.Addr, m.To, m.Subj, [], m.Text] [NL]

/-- Source `(*Msg).Encode`: the returned string and the receiver after the
call (`none` receiver is the nil pointer); the outer `none` is a panic. -/
def Msg.Encode (Sum256 : Str → Digest) (now : Int) (m : Option Msg) :
    Option (Str × Option Msg) :=
  match m with
  | none => some ([], none)
  | some m =>
    if m.Echo = [] then some ([], some m)
    else
      let m := if m.Date = 0 then { m with Date := now } else m
      let text := m.String
      if m.MsgId = [] then
        match ii.MsgId Sum256 text with
        | none => none
        | some id =>
          let m := { m with MsgId := id }
          some (m.MsgId ++ [COLON] ++ b64encode stdAlphabet text, some m)
      else some (m.MsgId ++ [COLON] ++ b64encode stdAlphabet text, some m)

/-- Loop `for i := start; i < len(text); i++ { m.Text += text[i] + "\n" }`
from an empty `m.Text`. -/
def bodyLines (text : List Str) (start : Nat) : Str :=
  (text.drop start).foldl (fun acc l => acc ++ (l ++ [NL])) []

/-- Return `(nil, errors.New(msg))`. -/
def failNew {α : Type} (msg : Str) : Except Fault α := .error (.error (.errorsNew msg))

/-- Outcome of a callee that can only panic. -/
def orPanic {α : Type} (r : Option α) : Except Fault α :=
  match r with
  | some a => .ok a
  | none => .error .panic

/-- Source `DecodeMsgline`; `now` is `time.Now().Unix()`. -/
def DecodeMsgline (now : Int) (msg : Str) (enc : Bool) : Except Fault Msg := do
  let m := Msg.zero
  let data ←
    if enc then
      match b64decode stdAlphabet msg with
      | some data => pure data
      | none =>
        match b64decode urlAlphabet msg with
        | some data => pure data
        | none => throw (Fault.error .corruptInput)
    else pure msg
  let text := Split data NL
  if text.length < 5 then failNew (str "Wrong message format")
  else
    let text3 ← index text 3
    if text3 ≠ [] then failNew (str "No body delimiter in message")
    else
      let m := { m with Echo := ← index text 0 }
      if !IsEcho m.Echo then failNew (str "Wrong echoarea format")
      else
        let m := { m with To := ← index text 1 }
        let m := { m with Subj := ← index text 2 }
        let m := { m with Date := now }
        let repto ← index text 4
        let (tags, _) ← orPanic (MakeTags (str "ii/ok"))
        let m := { m with Tags := tags }
        if HasPrefix repto (str "@repto:") then
          let repto := Trim (← index (Split repto COLON) 1) SP
          let (tags, _) ← orPanic (m.Tags.Add (str "repto/" ++ repto))
          let m := { m with Tags := tags }
          let m := { m with Text := bodyLines text 5 }
          pure { m with Text := TrimSuffix m.Text [NL] }
        else
          let m := { m with Text := bodyLines text 4 }
          pure { m with Text := TrimSuffix m.Text [NL] }

/-- Source `DecodeBundle`, lines 92-102: the optional identifier before the
colon.  Returns the text still to decode and the message with `MsgId` set (or
left empty when there is no colon). -/
def DecodeBundle.splitId (msg : Str) : Except Fault (Str × Msg) :=
  let m := Msg.zero
  if Contains msg COLON then
    let spl := Split msg COLON
    if spl.length ≠ 2 then failNew (str "Wrong bundle format")
    else do
      let msg ← index spl 1
      let m := { m with MsgId := ← index spl 0 }
      if !IsMsgId m.MsgId then failNew (str "Wrong MsgId format")
      else pure (msg, m)
  else pure (msg, m)

/-- Source `DecodeBundle`, lines 110-134: the fields read from the decoded
payload `data`. -/
def DecodeBundle.fields (data : Str) (m : Msg) : Except Fault Msg := do
  let text := Split data NL
  if text.length ≤ 8 then failNew (str "Wrong message format")
  else
    match ← orPanic (MakeTags (← index text 0)) with
    | (_, some err) => throw (Fault.error err)
    | (tags, none) =>
      let m := { m with Tags := tags }
      let m := { m with Echo := ← index text 1 }
      if !IsEcho m.Echo then failNew (str "Wrong echoarea format")
      else
        match SscanfInt (← index text 2) with
        | none => throw (Fault.error .scanError)
        | some date =>
          let m := { m with Date := date }
          let m := { m with From := ← index text 3 }
          let m := { m with Addr := ← index text 4 }
          let m := { m with To := ← index text 5 }
          let m := { m with Subj := ← index text 6 }
          let m := { m with Text := bodyLines text 8 }
          pure { m with Text := TrimSuffix m.Text [NL] }

/-- Source `DecodeBundle`, lines 103-109 followed by the field stage: base64
decoding and the identifier derived when none was supplied. -/
def DecodeBundle.payload (Sum256 : Str → Digest) (msg : Str) (m : Msg) : Except Fault Msg :=
  match b64decode stdAlphabet msg with
  | none => throw (Fault.error .corruptInput)
  | some data => do
    let m ← if m.MsgId = [] then (do pure { m with MsgId := ← orPanic (MsgId Sum256 data) })
            else pure m
    DecodeBundle.fields data m

/-- Source `DecodeBundle`. -/
def DecodeBundle (Sum256 : Str → Digest) (msg : Str) : Except Fault Msg := do
  let (msg, m) ← DecodeBundle.splitId msg
  DecodeBundle.payload Sum256 msg m

/-- The fault of an outcome, `none` for a returned message. -/
def faultOf {α : Type} (r : Except Fault α) : Option Fault :=
  match r with
  | .ok _ => none
  | .error f => some f

/-! ## Sample inputs -/

/-- A sample hash function: the all-zero digest. -/
def zeroSum256 : Str → Digest := fun _ => ⟨List.replicate 32 0, by decide⟩

/-- A run of `Add` calls that all return a nil error; `none` when one of them
returns an error or panics. -/
def addAll (t : Tags) (adds : List Str) : Option Tags :=
  match adds with
  | [] => some t
  | a :: rest =>
    match t.Add a with
    | some (t1, none) => addAll t1 rest
    | _ => none

/-- The tag set built by a successful `MakeTags s` followed by successful
`Add` calls with the strings `adds`, in order. -/
def buildTags (s : Str) (adds : List Str) : Option Tags :=
  match MakeTags s with
  | some (t, none) => addAll t adds
  | _ => none

/-- Even-indexed tokens: the keys of a token list. -/
def evens (toks : List Str) : List Str :=
  match toks with
  | [] => []
  | [k] => [k]
  | k :: _ :: rest => k :: evens rest

/-- The map after the assignments `h[k] = v` for the consecutive token pairs
`k v` of `toks`, in order. -/
def pairsMap (h : StrMap) (toks : List Str) : StrMap :=
  match toks with
  | k :: v :: rest => pairsMap (h.set k v) rest
  | _ => h

/-- Tokens that `Tags.String` writes for the keys `keys` that all resolve in
`h`: each key followed by its value. -/
def tagTokens (h : StrMap) (keys : List Str) : List Str :=
  match keys with
  | [] => []
  | k :: rest => k :: (h k).getD [] :: tagTokens h rest

/-- Each element followed by a slash, concatenated. -/
def slashed (toks : List Str) : Str :=
  match toks with
  | [] => []
  | a :: rest => a ++ SLASH :: slashed rest

/-- Shape of a non-empty tag set built from slash-separated tokens: the map
is not nil, every key of the list resolves in the map, the map has no other
key, no key or value contains a slash, and the first key does not start with a
space. -/
def Tags.Wf (t : Tags) : Prop :=
  ∃ h, t.Hash = some h ∧ t.List ≠ [] ∧
    (∀ k ∈ t.List, SLASH ∉ k ∧ ∃ v, h k = some v ∧ SLASH ∉ v) ∧
    (∀ x, x ∉ t.List → h x = none) ∧
    (∀ k, t.List.head? = some k → k.head? ≠ some SP)

/-- The value of the last key does not end in a space. -/
def Tags.lastValueTrimmed (t : Tags) : Prop :=
  ∀ h k v, t.Hash = some h → t.List.getLast? = some k → h k = some v → v.getLast? ≠ some SP

/-- The message of an outcome, `none` for a fault. -/
def msgOf {α : Type} (r : Except Fault α) : Option α :=
  match r with
  | .ok m => some m
  | .error _ => none

/-- Payload of the spec scenario for the line-count boundary. -/
def scenarioPayload : Str :=
  str "ii/ok/\ntest.echo\n1700000000\nalice\nnet/1\n\nHello\n\nBody text"

/-- A bundle payload whose line index 7 (the body delimiter) is not blank. -/
def noDelimiterPayload : Str :=
  str "ii/ok\ntest.echo\n1700000000\nalice\nnet/1\nbob\nHello\nnot blank\nBody text"

/-- A bundle payload of exactly 8 lines (7 newline bytes). -/
def eightLinePayload : Str :=
  str "ii/ok\ntest.echo\n1700000000\nalice\nnet/1\nbob\nHello\n"

/-- A msgline whose line index 3 (the body delimiter) is not blank. -/
def noDelimiterMsgline : Str :=
  str "test.echo\nbob\nSubject\nnot blank\nBody text"

/-- Validity of a message for transmission as a bundle: the identifier is
empty or a valid identifier without a colon, the tag set serialises to one
line that `MakeTags` parses, the echo name satisfies `IsEcho`, the date is an
`int64`, and echo, from, addr, to and subj are single lines. -/
def Msg.Valid (m : Msg) : Prop :=
  (m.MsgId = [] ∨ (IsMsgId m.MsgId = true ∧ COLON ∉ m.MsgId)) ∧
  NL ∉ m.Tags.String ∧
  (MakeTags m.Tags.String).map Prod.snd = some none ∧
  IsEcho m.Echo = true ∧
  inInt64 m.Date ∧
  NL ∉ m.Echo ∧ NL ∉ m.From ∧ NL ∉ m.Addr ∧ NL ∉ m.To ∧ NL ∉ m.Subj

instance (m : Msg) : Decidable m.Valid := by unfold Msg.Valid; infer_instance

/-- A valid sample message that carries an identifier and a date. -/
def sampleMsgWithId : Msg :=
  ⟨str "AbCdEfGhIjKlMnOpQrSt",
    ⟨some (StrMap.set StrMap.empty (str "ii") (str "ok")), [str "ii"]⟩, str "test.echo", -42,
    str "alice", str "net/1", [], str "Hi", str "\nBody\n\ntext\n\n"⟩

/-- A sample message without an echo name, with a zero date and no identifier. -/
def noEchoMsg : Msg :=
  ⟨[], ⟨none, []⟩, [], 0, str "alice", str "net/1", str "bob", str "Hi", str "Body"⟩

/-- A sample message with an echo name, `ii/ok` tags, a zero date and no
identifier. -/
def sampleMsg : Msg :=
  ⟨[], ⟨some (StrMap.set StrMap.empty (str "ii") (str "ok")), [str "ii"]⟩, str "test.echo", 0,
    str "alice", str "net/1", str "bob", str "Hi", str "Body\ntext\n"⟩

/-! ## Closed forms used to state properties of `DecodeMsgline` -/

/-- The bytes that `DecodeMsgline` splits into lines: the input itself, or
its base64 decoding with the standard alphabet first and the URL alphabet as
fallback; `none` is the decode error. -/
def msglineData (msg : Str) (enc : Bool) : Option Str :=
  if enc then
    match b64decode stdAlphabet msg with
    | some data => some data
    | none => b64decode urlAlphabet msg
  else some msg

/-- The tag set that `MakeTags("ii/ok")` returns. -/
def iiOkTags : Tags := ⟨some (pairsMap StrMap.empty [str "ii", str "ok"]), [str "ii"]⟩

/-- The reply-to value `DecodeMsgline` takes from line 4:
`strings.Trim(strings.Split(repto, ":")[1], " ")`. -/
def reptoValue (line4 : Str) : Str := Trim ((Split line4 COLON).getD 1 []) SP

/-- The tag set of a message that `DecodeMsgline` returns for the line 4
`line4`: `ii/ok`, and the pairs of `"repto/" + value` when the line starts
with `@repto:` and `Add` does not return its error. -/
def msglineTags (line4 : Str) : Tags :=
  if HasPrefix line4 (str "@repto:") then
    if (Split (str "repto/" ++ reptoValue line4) SLASH).length % 2 ≠ 0 then iiOkTags
    else
      ⟨some (pairsMap (pairsMap StrMap.empty [str "ii", str "ok"])
          (Split (str "repto/" ++ reptoValue line4) SLASH)),
        [str "ii"] ++ evens (Split (str "repto/" ++ reptoValue line4) SLASH)⟩
  else iiOkTags

/-- Index of the first body line for the line 4 `line4`. -/
def msglineStart (line4 : Str) : Nat := if HasPrefix line4 (str "@repto:") then 5 else 4

/-- ASCII letter or digit. -/
def isAlnum (c : Byte) : Bool :=
  isDigit c || (decide (65 ≤ c.val) && decide (c.val ≤ 90)) ||
    (decide (97 ≤ c.val) && decide (c.val ≤ 122))

/-- The msgline of the spec scenario with a reply-to line. -/
def reptoMsgline : Str :=
  str "test.echo\nbob\nSubject\n\n@repto:AbCdEfGhIjKlMnOpQrSt\nHello there"

/-- A msgline without a reply-to line whose body ends in an empty line. -/
def plainMsgline : Str :=
  str "test.echo\nbob\nSubject\n\nHello\nthere\n"

/-- Map read `t.Hash[k]`; a nil map has no entry. -/
def Tags.lookup (t : Tags) (k : Str) : Option Str :=
  match t.Hash with
  | none => none
  | some h => h k

/-- Tag-set invariant: the keys that occur in `List` are the keys of `Hash`. -/
def Tags.keysAgree (t : Tags) : Prop := ∀ k, k ∈ t.List ↔ ∃ v, t.lookup k = some v

/-! ## Integer tokens -/

/-- UTF-8 encodings of the runes that `fmt` skips as space, newline excluded:
U+0009, U+000B to U+000D, U+0020, U+0085, U+00A0, U+1680, U+2000 to U+200A,
U+2028, U+2029, U+202F, U+205F and U+3000. -/
def spaceRunes : List Str :=
  [[9], [11], [12], [13], [32], [0xC2, 0x85], [0xC2, 0xA0], [0xE1, 0x9A, 0x80],
   [0xE2, 0x80, 0x80], [0xE2, 0x80, 0x81], [0xE2, 0x80, 0x82], [0xE2, 0x80, 0x83],
   [0xE2, 0x80, 0x84], [0xE2, 0x80, 0x85], [0xE2, 0x80, 0x86], [0xE2, 0x80, 0x87],
   [0xE2, 0x80, 0x88], [0xE2, 0x80, 0x89], [0xE2, 0x80, 0x8A], [0xE2, 0x80, 0xA8],
   [0xE2, 0x80, 0xA9], [0xE2, 0x80, 0xAF], [0xE2, 0x81, 0x9F], [0xE3, 0x80, 0x80]]

/-- A run of zero or more space runes. -/
inductive SpaceRun : Str → Prop where
  /-- The empty run. -/
  | nil : SpaceRun []
  /-- A space rune followed by a run. -/
  | cons (r ws : Str) : r ∈ spaceRunes → SpaceRun ws → SpaceRun (r ++ ws)

/-- The string `s` begins with an integer token of value `n`: optional white
space, an optional sign `-` or `+`, then the longest run of decimal digits,
which is not empty and denotes, with the sign, a value in the `int64` range.
What follows the digits is free. -/
def BeginsWithInt (s : Str) (n : Int) : Prop :=
  ∃ ws sign ds tail, s = ws ++ (sign ++ (ds ++ tail)) ∧ SpaceRun ws ∧
    (sign = [] ∨ sign = [MINUS] ∨ sign = [PLUS]) ∧
    ds ≠ [] ∧ (∀ c ∈ ds, isDigit c = true) ∧
    (∀ c, tail.head? = some c → isDigit c = false) ∧
    n = (if sign = [MINUS] then -(digitsValue ds : Int) else (digitsValue ds : Int)) ∧
    inInt64 n

/-- A bundle payload of 9 lines whose line 2, the date, is `line2`. -/
def datePayload (line2 : Str) : Str :=
  str "ii/ok\ntest.echo\n" ++ line2 ++ str "\nalice\nnet/1\nbob\nHi\n\nBody"

/-! ## Lemmas on the string library -/

theorem getD_mem_or {α : Type} (l : List α) (n : Nat) (d : α) :
    l.getD n d ∈ l ∨ l.getD n d = d := by
  induction l generalizing n with
  | nil => simp
  | cons a l ih =>
    cases n with
    | zero => simp
    | succ n =>
      simp only [List.getD_cons_succ, List.mem_cons]
      rcases ih n with h | h
      · exact Or.inl (Or.inr h)
      · exact Or.inr h

theorem Contains_iff (s : Str) (c : Byte) : Contains s c = true ↔ c ∈ s := by
  simp [Contains]

theorem Contains_false_iff (s : Str) (c : Byte) : Contains s c = false ↔ c ∉ s := by
  simp [Contains]

theorem mem_Replace (s : Str) (old new x : Byte) (h : x ∈ Replace s old new) :
    x = new ∨ (x ∈ s ∧ x ≠ old) := by
  simp only [Replace, List.mem_map] at h
  obtain ⟨y, hy, rfl⟩ := h
  by_cases hyo : y = old
  · simp [hyo]
  · simp [hyo, hy]

theorem Replace_length (s : Str) (old new : Byte) : (Replace s old new).length = s.length := by
  simp [Replace]

/-! ## Lemmas on base64 -/

theorem b64encode_length (alpha src : Str) :
    (b64encode alpha src).length = 4 * ((src.length + 2) / 3) := by
  induction src using b64encode.induct alpha with
  | case1 => simp [b64encode]
  | case2 a => simp [b64encode]
  | case3 a b => simp [b64encode]
  | case4 a b c rest ih =>
    simp only [b64encode, List.length_cons, ih]
    omega

theorem b64encode_mem (alpha src : Str) (x : Byte) (h : x ∈ b64encode alpha src) :
    x = PAD ∨ ∃ n, x = encChar alpha n := by
  induction src using b64encode.induct alpha with
  | case1 => simp [b64encode] at h
  | case2 a =>
    simp only [b64encode, List.mem_cons, List.mem_singleton, List.not_mem_nil, or_false] at h
    rcases h with h | h | h | h
    · exact Or.inr ⟨_, h⟩
    · exact Or.inr ⟨_, h⟩
    · exact Or.inl h
    · exact Or.inl h
  | case3 a b =>
    simp only [b64encode, List.mem_cons, List.mem_singleton, List.not_mem_nil, or_false] at h
    rcases h with h | h | h | h
    · exact Or.inr ⟨_, h⟩
    · exact Or.inr ⟨_, h⟩
    · exact Or.inr ⟨_, h⟩
    · exact Or.inl h
  | case4 a b c rest ih =>
    simp only [b64encode, List.mem_cons] at h
    rcases h with h | h | h | h | h
    · exact Or.inr ⟨_, h⟩
    · exact Or.inr ⟨_, h⟩
    · exact Or.inr ⟨_, h⟩
    · exact Or.inr ⟨_, h⟩
    · exact ih h

/-- Every byte that `StdEncoding` can emit is in the alphabet, is the padding
character, or is the filler of an out-of-range table index. -/
theorem b64encode_std_mem (src : Str) (x : Byte) (h : x ∈ b64encode stdAlphabet src) :
    x ∈ stdAlphabet ∨ x = PAD ∨ x = 0 := by
  rcases b64encode_mem _ _ _ h with h | ⟨n, rfl⟩
  · exact Or.inr (Or.inl h)
  · rcases getD_mem_or stdAlphabet n 0 with h | h
    · exact Or.inl h
    · exact Or.inr (Or.inr h)

theorem b64encode_std_not_mem (src : Str) (x : Byte) (h1 : x ∉ stdAlphabet) (h2 : x ≠ PAD)
    (h3 : x ≠ 0) : x ∉ b64encode stdAlphabet src := by
  intro h
  rcases b64encode_std_mem src x h with h | h | h
  · exact h1 h
  · exact h2 h
  · exact h3 h

/-! ## Lemmas on identifiers -/

/-- The value `MsgId` computes: the slice `id[0:20]` is always in range. -/
theorem MsgId_eq (Sum256 : Str → Digest) (b : Str) :
    MsgId Sum256 b =
      some ((Replace (Replace (b64encode stdAlphabet (Sum256 b).val) PLUS UA) SLASH UZ).take 20) := by
  have hl : (Replace (Replace (b64encode stdAlphabet (Sum256 b).val) PLUS UA) SLASH UZ).length = 44 := by
    rw [Replace_length, Replace_length, b64encode_length, (Sum256 b).property]
  simp only [MsgId, slice, hl]
  simp

theorem MsgId_props (Sum256 : Str → Digest) (b id : Str) (h : MsgId Sum256 b = some id) :
    id.length = 20 ∧ DOT ∉ id ∧ PLUS ∉ id ∧ SLASH ∉ id ∧ COLON ∉ id := by
  rw [MsgId_eq] at h
  have hid := Option.some.inj h
  have hl : (Replace (Replace (b64encode stdAlphabet (Sum256 b).val) PLUS UA) SLASH UZ).length = 44 := by
    rw [Replace_length, Replace_length, b64encode_length, (Sum256 b).property]
  have key : ∀ x ∈ id, x ≠ SLASH ∧ x ≠ PLUS ∧ ((x ∈ stdAlphabet ∨ x = PAD ∨ x = 0) ∨ x = UA ∨ x = UZ) := by
    intro x hx
    rw [← hid] at hx
    have hx := List.mem_of_mem_take hx
    rcases mem_Replace _ _ _ _ hx with h1 | ⟨h1, h2⟩
    · subst h1; exact ⟨by decide, by decide, Or.inr (Or.inr rfl)⟩
    · rcases mem_Replace _ _ _ _ h1 with h3 | ⟨h3, h4⟩
      · subst h3; exact ⟨by decide, by decide, Or.inr (Or.inl rfl)⟩
      · exact ⟨h2, h4, Or.inl (b64encode_std_mem _ _ h3)⟩
  refine ⟨?_, ?_, ?_, ?_, ?_⟩
  · rw [← hid, List.length_take, hl]; rfl
  · intro hx
    have h := (key _ hx).2.2
    revert h
    decide
  · intro hx; exact (key _ hx).2.1 rfl
  · intro hx; exact (key _ hx).1 rfl
  · intro hx
    have h := (key _ hx).2.2
    revert h
    decide

theorem MsgId_IsMsgId (Sum256 : Str → Digest) (b id : Str) (h : MsgId Sum256 b = some id) :
    IsMsgId id = true := by
  have hp := MsgId_props Sum256 b id h
  simp [IsMsgId, hp.1, Contains, hp.2.1]

/-! ## Verified claims -/

/-- C2: for every byte string `b` and every hash function into 32-byte digests,
`MsgId b` is defined (the slice `id[0:20]` does not panic), its value is a
function of `b` alone, has length exactly 20, contains none of `.`, `+`, `/`,
and satisfies `IsMsgId`. -/
theorem C2_MsgId_wellformed (Sum256 : Str → Digest) (b : Str) :
    ∃ id, MsgId Sum256 b = some id ∧ id.length = 20 ∧ DOT ∉ id ∧ PLUS ∉ id ∧ SLASH ∉ id ∧
      IsMsgId id = true := by
  refine ⟨_, MsgId_eq Sum256 b, ?_⟩
  have hp := MsgId_props Sum256 b _ (MsgId_eq Sum256 b)
  exact ⟨hp.1, hp.2.1, hp.2.2.1, hp.2.2.2.1, MsgId_IsMsgId Sum256 b _ (MsgId_eq Sum256 b)⟩

/-- C5: `Encode` on a message whose echo name is empty returns the empty
string and leaves the message as it was, whatever its other fields: the
identifier is not derived and a zero date is not stamped. -/
theorem C5_Encode_no_echo (Sum256 : Str → Digest) (now : Int) (m : Msg) (h : m.Echo = []) :
    Msg.Encode Sum256 now (some m) = some ([], some m) := by
  simp [Msg.Encode, h]

theorem C5_Encode_no_echo_witness :
    noEchoMsg.Echo = [] ∧
      Msg.Encode zeroSum256 1700000000 (some noEchoMsg) = some ([], some noEchoMsg) :=
  ⟨rfl, C5_Encode_no_echo zeroSum256 1700000000 noEchoMsg rfl⟩

/-- C4: for a message with a non-empty echo name `Encode` returns
`id ++ ":" ++ base64(c)` where `c` is the canonical form (tags, echo, decimal
date, from, addr, to, subj, an empty line, text, joined by newline) computed
with the date filled in; an empty `MsgId` is replaced by `MsgId(c)` and stored
in the message, a non-empty one is used and left unchanged. -/
theorem C4_Encode_canonical (Sum256 : Str → Digest) (now : Int) (m : Msg) (d : Int) (c : Str)
    (h : m.Echo ≠ [])
    (hd : d = if m.Date = 0 then now else m.Date)
    (hc : c = m.Tags.String ++ [NL] ++ m.Echo ++ [NL] ++ Sprint d ++ [NL] ++ m.From ++ [NL] ++
            m.Addr ++ [NL] ++ m.To ++ [NL] ++ m.Subj ++ [NL] ++ [NL] ++ m.Text) :
    ∃ id,
      (if m.MsgId = [] then MsgId Sum256 c = some id else id = m.MsgId) ∧
      Msg.Encode Sum256 now (some m) =
        some (id ++ [COLON] ++ b64encode stdAlphabet c, some { m with Date := d, MsgId := id }) := by
  by_cases hid : m.MsgId = []
  · refine ⟨(Replace (Replace (b64encode stdAlphabet (Sum256 c).val) PLUS UA) SLASH UZ).take 20,
      ?_, ?_⟩
    · simp only [hid, if_true]; exact MsgId_eq _ _
    · by_cases hz : m.Date = 0
      · simp only [hz, if_true] at hd
        subst hd
        simp [Msg.Encode, h, hz, hid, hc, Msg.String, Join, MsgId_eq]
      · simp only [hz, if_false] at hd
        subst hd
        simp [Msg.Encode, h, hz, hid, hc, Msg.String, Join, MsgId_eq]
  · refine ⟨m.MsgId, by simp [hid], ?_⟩
    by_cases hz : m.Date = 0
    · simp only [hz, if_true] at hd
      subst hd
      simp [Msg.Encode, h, hz, hid, hc, Msg.String, Join]
    · simp only [hz, if_false] at hd
      subst hd
      simp [Msg.Encode, h, hz, hid, hc, Msg.String, Join]

theorem C4_Encode_canonical_witness :
    ∃ id,
      (if sampleMsg.MsgId = [] then
          MsgId zeroSum256 (str "ii/ok\ntest.echo\n1700000000\nalice\nnet/1\nbob\nHi\n\nBody\ntext\n")
            = some id
        else id = sampleMsg.MsgId) ∧
      Msg.Encode zeroSum256 1700000000 (some sampleMsg) =
        some (id ++ [COLON] ++ b64encode stdAlphabet
            (str "ii/ok\ntest.echo\n1700000000\nalice\nnet/1\nbob\nHi\n\nBody\ntext\n"),
          some { sampleMsg with Date := 1700000000, MsgId := id }) :=
  C4_Encode_canonical zeroSum256 1700000000 sampleMsg 1700000000
    (str "ii/ok\ntest.echo\n1700000000\nalice\nnet/1\nbob\nHi\n\nBody\ntext\n")
    (by decide) (by decide) (by decide)

/-! ## Lemmas on `Split` and `Join` -/

theorem Split_ne_nil (s : Str) (sep : Byte) : Split s sep ≠ [] := by
  induction s with
  | nil => simp [Split]
  | cons c cs ih =>
    unfold Split
    split
    · simp
    · split <;> simp

theorem Split_cons_sep (s : Str) (sep : Byte) : Split (sep :: s) sep = [] :: Split s sep := by
  simp [Split]

theorem Split_cons_ne (c : Byte) (s : Str) (sep : Byte) (l : Str) (ls : List Str) (h : c ≠ sep)
    (hs : Split s sep = l :: ls) : Split (c :: s) sep = (c :: l) :: ls := by
  rw [Split]
  simp [h, hs]

theorem Split_no_sep (a : Str) (sep : Byte) (h : sep ∉ a) : Split a sep = [a] := by
  induction a with
  | nil => simp [Split]
  | cons c cs ih =>
    have hc : c ≠ sep := fun e => h (by simp [e])
    have hcs : sep ∉ cs := fun e => h (by simp [e])
    exact Split_cons_ne c cs sep cs [] hc (ih hcs)

theorem Split_append_sep (a r : Str) (sep : Byte) (h : sep ∉ a) :
    Split (a ++ sep :: r) sep = a :: Split r sep := by
  induction a with
  | nil => simp [Split]
  | cons c cs ih =>
    have hc : c ≠ sep := fun e => h (by simp [e])
    have hcs : sep ∉ cs := fun e => h (by simp [e])
    exact Split_cons_ne c (cs ++ sep :: r) sep cs (Split r sep) hc (ih hcs)

theorem Split_length (s : Str) (sep : Byte) : (Split s sep).length = s.count sep + 1 := by
  induction s with
  | nil => simp [Split]
  | cons c cs ih =>
    by_cases hc : c = sep
    · subst hc
      simp [Split_cons_sep, ih]
    · obtain ⟨l, ls, hl⟩ := List.exists_cons_of_ne_nil (Split_ne_nil cs sep)
      rw [Split_cons_ne c cs sep l ls hc hl, List.count_cons_of_ne (Ne.symm hc), ← ih, hl]
      simp

theorem Split_mem_no_sep (s : Str) (sep : Byte) : ∀ x ∈ Split s sep, sep ∉ x := by
  induction s with
  | nil => simp [Split]
  | cons c cs ih =>
    by_cases hc : c = sep
    · subst hc
      simp only [Split_cons_sep, List.mem_cons]
      rintro x (rfl | hx)
      · simp
      · exact ih x hx
    · obtain ⟨l, ls, hl⟩ := List.exists_cons_of_ne_nil (Split_ne_nil cs sep)
      rw [Split_cons_ne c cs sep l ls hc hl]
      rw [hl] at ih
      simp only [List.mem_cons]
      rintro x (rfl | hx)
      · simp only [List.mem_cons, not_or]
        exact ⟨Ne.symm hc, ih l (by simp)⟩
      · exact ih x (by simp [hx])

/-- Splitting is inverted by joining with the separator. -/
theorem Join_Split (s : Str) (sep : Byte) : Join (Split s sep) [sep] = s := by
  induction s with
  | nil => simp [Split, Join]
  | cons c cs ih =>
    by_cases hc : c = sep
    · subst hc
      obtain ⟨l, ls, hl⟩ := List.exists_cons_of_ne_nil (Split_ne_nil cs c)
      rw [Split_cons_sep, hl, Join, ← hl, ih]
      simp
    · obtain ⟨l, ls, hl⟩ := List.exists_cons_of_ne_nil (Split_ne_nil cs sep)
      rw [Split_cons_ne c cs sep l ls hc hl]
      rw [hl] at ih
      cases ls with
      | nil => simp only [Join] at ih ⊢; rw [ih]
      | cons b rest => simp only [Join] at ih ⊢; rw [← ih]; simp

/-- A string that splits into exactly two pieces is the two pieces around one
separator. -/
theorem Split_two (s : Str) (sep : Byte) (p q : Str) (h : Split s sep = [p, q]) :
    s = p ++ sep :: q ∧ sep ∉ p ∧ sep ∉ q := by
  have hj := Join_Split s sep
  rw [h] at hj
  have hm := Split_mem_no_sep s sep
  rw [h] at hm
  refine ⟨?_, hm p (by simp), hm q (by simp)⟩
  rw [← hj]
  simp [Join]

theorem index_eq_ok {α : Type} (l : List α) (i : Nat) (a : α) (h : l[i]? = some a) :
    index l i = .ok a := by
  simp [index, h]

/-! ## The identifier stage of `DecodeBundle` -/

theorem splitId_bare (msg : Str) (h : COLON ∉ msg) :
    DecodeBundle.splitId msg = .ok (msg, Msg.zero) := by
  simp [DecodeBundle.splitId, Contains, h, pure, Except.pure]

theorem splitId_many (msg : Str) (h : COLON ∈ msg) (hl : (Split msg COLON).length ≠ 2) :
    DecodeBundle.splitId msg = failNew (str "Wrong bundle format") := by
  simp [DecodeBundle.splitId, Contains, h, hl]

theorem splitId_pair (p q : Str) (hp : COLON ∉ p) (hq : COLON ∉ q) :
    DecodeBundle.splitId (p ++ COLON :: q) =
      if IsMsgId p then .ok (q, { Msg.zero with MsgId := p })
      else failNew (str "Wrong MsgId format") := by
  have hs : Split (p ++ COLON :: q) COLON = [p, q] := by
    rw [Split_append_sep p q COLON hp, Split_no_sep q COLON hq]
  by_cases hi : IsMsgId p = true
  · simp [DecodeBundle.splitId, Contains, hs, index, bind, Except.bind, pure, Except.pure, hi]
  · simp [DecodeBundle.splitId, Contains, hs, index, bind, Except.bind, pure, Except.pure, hi]

/-- Inversion of the identifier stage: it succeeds either on a colon-free
input, or on `id:rest` with a valid `id`. -/
theorem splitId_ok (msg b : Str) (m : Msg) (h : DecodeBundle.splitId msg = .ok (b, m)) :
    (COLON ∉ msg ∧ b = msg ∧ m = Msg.zero) ∨
    (∃ p, msg = p ++ COLON :: b ∧ COLON ∉ p ∧ COLON ∉ b ∧ IsMsgId p = true ∧
      m = { Msg.zero with MsgId := p }) := by
  by_cases hc : COLON ∈ msg
  · right
    by_cases hl : (Split msg COLON).length = 2
    · obtain ⟨p, q, hpq⟩ : ∃ p q, Split msg COLON = [p, q] := by
        match hS : Split msg COLON, hl with
        | [p, q], _ => exact ⟨p, q, rfl⟩
      obtain ⟨hmsg, hp, hq⟩ := Split_two msg COLON p q hpq
      rw [hmsg, splitId_pair p q hp hq] at h
      by_cases hi : IsMsgId p = true
      · simp only [hi, if_true, Except.ok.injEq, Prod.mk.injEq] at h
        obtain ⟨rfl, rfl⟩ := h
        exact ⟨p, hmsg, hp, hq, hi, rfl⟩
      · simp [hi, failNew] at h
    · rw [splitId_many msg hc hl] at h
      simp [failNew] at h
  · left
    rw [splitId_bare msg hc] at h
    simp only [Except.ok.injEq, Prod.mk.injEq] at h
    exact ⟨hc, h.1.symm, h.2.symm⟩

/-- C7: `DecodeBundle` returns the format error "Wrong bundle format" for
every input that contains a colon and does not split on `:` into exactly two
parts, and the format error "Wrong MsgId format" for every input with exactly
one colon whose part before the colon is not 20 bytes long or contains `.`;
no message is returned in either case. -/
theorem C7_DecodeBundle_prefix_errors (Sum256 : Str → Digest) (msg : Str) :
    (COLON ∈ msg → (Split msg COLON).length ≠ 2 →
      DecodeBundle Sum256 msg = failNew (str "Wrong bundle format")) ∧
    (∀ p q, msg = p ++ COLON :: q → COLON ∉ p → COLON ∉ q → (p.length ≠ 20 ∨ DOT ∈ p) →
      DecodeBundle Sum256 msg = failNew (str "Wrong MsgId format")) := by
  constructor
  · intro hc hl
    simp [DecodeBundle, splitId_many msg hc hl, failNew, bind, Except.bind]
  · intro p q hmsg hp hq hbad
    have hi : IsMsgId p = false := by
      rcases hbad with h | h
      · simp [IsMsgId, h]
      · simp [IsMsgId, Contains, h]
    simp [DecodeBundle, hmsg, splitId_pair p q hp hq, hi, failNew, bind, Except.bind]

theorem C7_DecodeBundle_prefix_errors_witness :
    DecodeBundle zeroSum256 (str "AbCdEfGhIjKlMnOpQrSt:aWkvb2s=:eA==") =
        failNew (str "Wrong bundle format") ∧
    DecodeBundle zeroSum256 (str "AbCdEfGhIjKlMnOpQr.t:aWkvb2s=") =
        failNew (str "Wrong MsgId format") :=
  ⟨(C7_DecodeBundle_prefix_errors zeroSum256 _).1 (by decide) (by decide),
   (C7_DecodeBundle_prefix_errors zeroSum256 _).2 (str "AbCdEfGhIjKlMnOpQr.t") (str "aWkvb2s=")
      (by decide) (by decide) (by decide) (by decide)⟩

/-! ## The payload and field stages of `DecodeBundle` -/

theorem DecodeBundle_eq (Sum256 : Str → Digest) (msg b : Str) (m0 : Msg)
    (h : DecodeBundle.splitId msg = .ok (b, m0)) :
    DecodeBundle Sum256 msg = DecodeBundle.payload Sum256 b m0 := by
  simp [DecodeBundle, h, bind, Except.bind]

theorem DecodeBundle_ok (Sum256 : Str → Digest) (msg : Str) (m : Msg)
    (h : DecodeBundle Sum256 msg = .ok m) :
    ∃ b m0, DecodeBundle.splitId msg = .ok (b, m0) ∧ DecodeBundle.payload Sum256 b m0 = .ok m := by
  cases hs : DecodeBundle.splitId msg with
  | error f => simp [DecodeBundle, hs, bind, Except.bind] at h
  | ok r =>
    obtain ⟨b, m0⟩ := r
    refine ⟨b, m0, rfl, ?_⟩
    rw [← DecodeBundle_eq Sum256 msg b m0 hs]
    exact h

theorem payload_eq (Sum256 : Str → Digest) (b data : Str) (m0 : Msg)
    (h : b64decode stdAlphabet b = some data) :
    ∃ id, MsgId Sum256 data = some id ∧
      DecodeBundle.payload Sum256 b m0 =
        DecodeBundle.fields data (if m0.MsgId = [] then { m0 with MsgId := id } else m0) := by
  refine ⟨_, MsgId_eq Sum256 data, ?_⟩
  by_cases hid : m0.MsgId = []
  · simp [DecodeBundle.payload, h, hid, MsgId_eq, orPanic, bind, Except.bind, pure, Except.pure]
  · simp [DecodeBundle.payload, h, hid, bind, Except.bind, pure, Except.pure]

theorem payload_ok (Sum256 : Str → Digest) (b : Str) (m0 m : Msg)
    (h : DecodeBundle.payload Sum256 b m0 = .ok m) :
    ∃ data id, b64decode stdAlphabet b = some data ∧ MsgId Sum256 data = some id ∧
      DecodeBundle.fields data (if m0.MsgId = [] then { m0 with MsgId := id } else m0) = .ok m := by
  cases hd : b64decode stdAlphabet b with
  | none => simp [DecodeBundle.payload, hd, throw, throwThe, MonadExceptOf.throw] at h
  | some data =>
    obtain ⟨id, hid, he⟩ := payload_eq Sum256 b data m0 hd
    exact ⟨data, id, rfl, hid, by rw [← he]; exact h⟩

theorem fields_short (data : Str) (m0 : Msg) (h : (Split data NL).length ≤ 8) :
    DecodeBundle.fields data m0 = failNew (str "Wrong message format") := by
  simp [DecodeBundle.fields, h]

/-- The field stage on a payload of more than 8 lines. -/
theorem fields_cons (data : Str) (m0 : Msg) (t0 t1 t2 t3 t4 t5 t6 t7 t8 : Str) (rest : List Str)
    (hs : Split data NL = t0 :: t1 :: t2 :: t3 :: t4 :: t5 :: t6 :: t7 :: t8 :: rest) :
    DecodeBundle.fields data m0 =
      match MakeTags t0 with
      | none => .error .panic
      | some (_, some err) => .error (.error err)
      | some (tags, none) =>
        if IsEcho t1 then
          match SscanfInt t2 with
          | none => .error (.error .scanError)
          | some date =>
            .ok { MsgId := m0.MsgId, Tags := tags, Echo := t1, Date := date, From := t3, Addr := t4,
                  To := t5, Subj := t6,
                  Text := TrimSuffix (bodyLines (Split data NL) 8) [NL] }
        else failNew (str "Wrong echoarea format") := by
  cases hm : MakeTags t0 with
  | none =>
    simp [DecodeBundle.fields, hs, index, orPanic, hm, bind, Except.bind, pure, Except.pure]
  | some r =>
    obtain ⟨tags, e⟩ := r
    cases e with
    | some err =>
      simp [DecodeBundle.fields, hs, index, orPanic, hm, bind, Except.bind, pure, Except.pure,
        throw, throwThe, MonadExceptOf.throw]
    | none =>
      by_cases he : IsEcho t1 = true
      · cases hd : SscanfInt t2 with
        | none =>
          simp [DecodeBundle.fields, hs, index, orPanic, hm, bind, Except.bind, pure, Except.pure,
            throw, throwThe, MonadExceptOf.throw, he, hd]
        | some date =>
          simp [DecodeBundle.fields, hs, index, orPanic, hm, bind, Except.bind, pure, Except.pure,
            he, hd]
      · simp [DecodeBundle.fields, hs, index, orPanic, hm, bind, Except.bind, pure, Except.pure, he]

/-- A list longer than 8 has a ninth element. -/
theorem exists_nine {α : Type} (l : List α) (h : 8 < l.length) :
    ∃ t0 t1 t2 t3 t4 t5 t6 t7 t8 rest,
      l = t0 :: t1 :: t2 :: t3 :: t4 :: t5 :: t6 :: t7 :: t8 :: rest := by
  match l, h with
  | t0 :: t1 :: t2 :: t3 :: t4 :: t5 :: t6 :: t7 :: t8 :: rest, _ =>
    exact ⟨t0, t1, t2, t3, t4, t5, t6, t7, t8, rest, rfl⟩

/-- Inversion of the field stage: what an accepted payload looks like and
what the returned message holds. -/
theorem fields_ok (data : Str) (m0 m : Msg) (h : DecodeBundle.fields data m0 = .ok m) :
    ∃ t0 t1 t2 t3 t4 t5 t6 t7 t8 rest tags,
      Split data NL = t0 :: t1 :: t2 :: t3 :: t4 :: t5 :: t6 :: t7 :: t8 :: rest ∧
      MakeTags t0 = some (tags, none) ∧ IsEcho t1 = true ∧ SscanfInt t2 = some m.Date ∧
      m = { MsgId := m0.MsgId, Tags := tags, Echo := t1, Date := m.Date, From := t3, Addr := t4,
            To := t5, Subj := t6, Text := TrimSuffix (bodyLines (Split data NL) 8) [NL] } := by
  by_cases hl : (Split data NL).length ≤ 8
  · rw [fields_short data m0 hl] at h
    simp [failNew] at h
  · obtain ⟨t0, t1, t2, t3, t4, t5, t6, t7, t8, rest, hs⟩ :=
      exists_nine (Split data NL) (by omega)
    rw [fields_cons data m0 t0 t1 t2 t3 t4 t5 t6 t7 t8 rest hs] at h
    cases hm : MakeTags t0 with
    | none => simp [hm] at h
    | some r =>
      obtain ⟨tags, e⟩ := r
      cases e with
      | some err => simp [hm] at h
      | none =>
        by_cases he : IsEcho t1 = true
        · cases hd : SscanfInt t2 with
          | none => simp [hm, he, hd] at h
          | some date =>
            simp only [hm, he, hd, if_true, Except.ok.injEq] at h
            subst h
            exact ⟨t0, t1, t2, t3, t4, t5, t6, t7, t8, rest, tags, hs, hm, he, hd, rfl⟩
        · simp [hm, he, failNew] at h

theorem fields_ok_MsgId (data : Str) (m0 m : Msg) (h : DecodeBundle.fields data m0 = .ok m) :
    m.MsgId = m0.MsgId := by
  obtain ⟨t0, t1, t2, t3, t4, t5, t6, t7, t8, rest, tags, -, -, -, -, hm⟩ := fields_ok data m0 m h
  rw [hm]

theorem append_sep_inj (p q p2 q2 : Str) (sep : Byte) (hp : sep ∉ p) (hp2 : sep ∉ p2)
    (h : p ++ sep :: q = p2 ++ sep :: q2) : p = p2 ∧ q = q2 := by
  induction p generalizing p2 with
  | nil =>
    cases p2 with
    | nil => simpa using h
    | cons c cs =>
      simp only [List.nil_append, List.cons_append, List.cons.injEq] at h
      exact absurd (by simp [h.1]) hp2
  | cons a as ih =>
    cases p2 with
    | nil =>
      simp only [List.nil_append, List.cons_append, List.cons.injEq] at h
      exact absurd (by simp [h.1]) hp
    | cons c cs =>
      simp only [List.cons_append, List.cons.injEq] at h
      have := ih cs (fun e => hp (by simp [e])) (fun e => hp2 (by simp [e])) h.2
      exact ⟨by rw [h.1, this.1], this.2⟩

/-- C6: when `DecodeBundle` accepts an input, the returned `MsgId` is the text
before the colon for an input `id:base64` (whatever the payload hashes to), and
is `MsgId` of the base64-decoded payload for an input without a colon. -/
theorem C6_DecodeBundle_MsgId (Sum256 : Str → Digest) (msg : Str) (m : Msg)
    (h : DecodeBundle Sum256 msg = .ok m) :
    (∀ id b, msg = id ++ COLON :: b → m.MsgId = id) ∧
    (COLON ∉ msg →
      ∃ data, b64decode stdAlphabet msg = some data ∧ MsgId Sum256 data = some m.MsgId) := by
  obtain ⟨b0, m0, hs, hp⟩ := DecodeBundle_ok Sum256 msg m h
  obtain ⟨data, id0, hd, hid, hf⟩ := payload_ok Sum256 b0 m0 m hp
  have hm := fields_ok_MsgId data _ m hf
  rcases splitId_ok msg b0 m0 hs with ⟨hc, rfl, rfl⟩ | ⟨p, hmsg, hpc, hbc, hi, rfl⟩
  · constructor
    · intro id b e
      exact absurd (by simp [e]) hc
    · intro _
      refine ⟨data, hd, ?_⟩
      simp only [Msg.zero, if_true] at hm
      rw [hm]
      exact hid
  · constructor
    · intro id b e
      have hpne : p ≠ [] := by
        intro e2
        rw [e2] at hi
        simp [IsMsgId] at hi
      simp only [hpne, if_false] at hm
      rw [hm]
      have hidc : COLON ∉ id := by
        intro hin
        obtain ⟨u, v, rfl⟩ := List.append_of_mem hin
        have hcnt : (p ++ COLON :: b0).count COLON = 1 := by
          simp [List.count_eq_zero_of_not_mem hpc, List.count_eq_zero_of_not_mem hbc]
        rw [hmsg] at e
        rw [e] at hcnt
        simp at hcnt
        omega
      rw [hmsg] at e
      exact (append_sep_inj p b0 id b COLON hpc hidc e).1
    · intro hc
      exact absurd (by simp [hmsg]) hc

theorem C6_DecodeBundle_MsgId_witness :
    ∃ m, DecodeBundle zeroSum256 (str "AbCdEfGhIjKlMnOpQrSt:" ++ b64encode stdAlphabet noDelimiterPayload) = .ok m ∧
      ((∀ id b, str "AbCdEfGhIjKlMnOpQrSt:" ++ b64encode stdAlphabet noDelimiterPayload = id ++ COLON :: b →
          m.MsgId = id) ∧
       (COLON ∉ str "AbCdEfGhIjKlMnOpQrSt:" ++ b64encode stdAlphabet noDelimiterPayload →
          ∃ data, b64decode stdAlphabet
              (str "AbCdEfGhIjKlMnOpQrSt:" ++ b64encode stdAlphabet noDelimiterPayload) = some data ∧
            MsgId zeroSum256 data = some m.MsgId)) :=
  ⟨_, rfl, C6_DecodeBundle_MsgId zeroSum256 _ _ rfl⟩

/-- The outcome of `DecodeBundle` on an input of one of the two accepted
shapes whose text after the optional identifier decodes to `data`. -/
theorem DecodeBundle_shape (Sum256 : Str → Digest) (msg b data : Str)
    (hform : (msg = b ∧ COLON ∉ b) ∨
      (∃ id, msg = id ++ COLON :: b ∧ COLON ∉ id ∧ COLON ∉ b ∧ IsMsgId id = true))
    (hdec : b64decode stdAlphabet b = some data) :
    ∃ m0, DecodeBundle Sum256 msg = DecodeBundle.fields data m0 := by
  rcases hform with ⟨rfl, hc⟩ | ⟨id, rfl, hic, hbc, hi⟩
  · obtain ⟨id, -, he⟩ := payload_eq Sum256 msg data Msg.zero hdec
    exact ⟨_, by rw [DecodeBundle_eq Sum256 msg msg Msg.zero (splitId_bare msg hc), he]⟩
  · have hs := splitId_pair id b hic hbc
    rw [hi] at hs
    simp only [if_true] at hs
    obtain ⟨id2, -, he⟩ := payload_eq Sum256 b data { Msg.zero with MsgId := id } hdec
    exact ⟨_, by rw [DecodeBundle_eq Sum256 _ b _ hs, he]⟩

/-- C8: line-count boundary of `DecodeBundle`.  For every input (bare base64,
or a valid identifier, a colon and base64) whose decoded payload splits on
newline into 8 or fewer lines, `DecodeBundle` returns the format error "Wrong
message format"; having 8 or fewer lines is having fewer than 8 newline bytes;
and every accepted input has a payload of more than 8 lines. -/
theorem C8_DecodeBundle_line_count (Sum256 : Str → Digest) (msg : Str) :
    (∀ b data,
      ((msg = b ∧ COLON ∉ b) ∨
        (∃ id, msg = id ++ COLON :: b ∧ COLON ∉ id ∧ COLON ∉ b ∧ IsMsgId id = true)) →
      b64decode stdAlphabet b = some data →
      (Split data NL).length ≤ 8 →
      DecodeBundle Sum256 msg = failNew (str "Wrong message format")) ∧
    (∀ data : Str, (Split data NL).length ≤ 8 ↔ data.count NL < 8) ∧
    (∀ m, DecodeBundle Sum256 msg = .ok m →
      ∃ b data, (msg = b ∨ ∃ id, msg = id ++ COLON :: b) ∧
        b64decode stdAlphabet b = some data ∧ 8 < (Split data NL).length) := by
  refine ⟨?_, ?_, ?_⟩
  · intro b data hform hdec hl
    obtain ⟨m0, he⟩ := DecodeBundle_shape Sum256 msg b data hform hdec
    rw [he, fields_short data m0 hl]
  · intro data
    rw [Split_length]
    omega
  · intro m h
    obtain ⟨b0, m0, hs, hp⟩ := DecodeBundle_ok Sum256 msg m h
    obtain ⟨data, id0, hd, -, hf⟩ := payload_ok Sum256 b0 m0 m hp
    refine ⟨b0, data, ?_, hd, ?_⟩
    · rcases splitId_ok msg b0 m0 hs with ⟨-, rfl, -⟩ | ⟨p, hmsg, -, -, -, -⟩
      · exact Or.inl rfl
      · exact Or.inr ⟨p, hmsg⟩
    · obtain ⟨t0, t1, t2, t3, t4, t5, t6, t7, t8, rest, tags, hsp, -⟩ := fields_ok data _ m hf
      rw [hsp]
      simp

theorem C8_DecodeBundle_line_count_witness :
    DecodeBundle zeroSum256 (b64encode stdAlphabet eightLinePayload) =
        failNew (str "Wrong message format") ∧
    ∃ b data, (b64encode stdAlphabet noDelimiterPayload = b ∨
          ∃ id, b64encode stdAlphabet noDelimiterPayload = id ++ COLON :: b) ∧
        b64decode stdAlphabet b = some data ∧ 8 < (Split data NL).length :=
  ⟨(C8_DecodeBundle_line_count zeroSum256 (b64encode stdAlphabet eightLinePayload)).1
      (b64encode stdAlphabet eightLinePayload) eightLinePayload
      (Or.inl ⟨rfl, by decide⟩) (by decide) (by decide),
   (C8_DecodeBundle_line_count zeroSum256 (b64encode stdAlphabet noDelimiterPayload)).2.2 _ rfl⟩

/-- C9 as stated fails: the scenario payload has 9 lines, not fewer, so the
line-count check does not reject it, and the error returned is not "Wrong
message format". -/
theorem C9_scenario_not_line_count :
    ¬ ((Split scenarioPayload NL).length < 9) ∧
    faultOf (DecodeBundle zeroSum256 (b64encode stdAlphabet scenarioPayload)) ≠
      some (.error (.errorsNew (str "Wrong message format"))) := by
  decide

/-- C9, amended: `DecodeBundle` applied, with no identifier prefix, to the
standard base64 encoding of the scenario payload fails with the format error
"Wrong tags: ii/ok/" of `MakeTags`: the payload has 9 lines and passes the
line-count check, and its tag line `ii/ok/` splits into an odd number of
tokens. -/
theorem C9_scenario_wrong_tags (Sum256 : Str → Digest) :
    (Split scenarioPayload NL).length = 9 ∧
    (Split (str "ii/ok/") SLASH).length = 3 ∧
    DecodeBundle Sum256 (b64encode stdAlphabet scenarioPayload) =
      failNew (str "Wrong tags: ii/ok/") := by
  refine ⟨by decide, by decide, ?_⟩
  obtain ⟨m0, he⟩ := DecodeBundle_shape Sum256 (b64encode stdAlphabet scenarioPayload)
    (b64encode stdAlphabet scenarioPayload) scenarioPayload (Or.inl ⟨rfl, by decide⟩) (by decide)
  rw [he, fields_cons scenarioPayload m0 (str "ii/ok/") (str "test.echo") (str "1700000000")
    (str "alice") (str "net/1") [] (str "Hello") [] (str "Body text") [] (by decide)]
  rfl

/-- C10, the defect: `DecodeBundle` accepts a payload whose line index 7 is
"not blank" and returns a message with body "Body text" (line 7 is never
read), whereas `DecodeMsgline` rejects a msgline whose line index 3 is
non-empty with "No body delimiter in message". -/
theorem C10_DecodeBundle_ignores_delimiter :
    (Split noDelimiterPayload NL)[7]? = some (str "not blank") ∧
    faultOf (DecodeBundle zeroSum256 (b64encode stdAlphabet noDelimiterPayload)) = none ∧
    (msgOf (DecodeBundle zeroSum256 (b64encode stdAlphabet noDelimiterPayload))).map Msg.Text =
      some (str "Body text") ∧
    (Split noDelimiterMsgline NL)[3]? = some (str "not blank") ∧
    faultOf (DecodeMsgline 1700000000 noDelimiterMsgline false) =
      some (.error (.errorsNew (str "No body delimiter in message"))) := by
  decide

/-! ## Base64 round trip -/

theorem decChar_encChar_fin :
    ∀ n : Fin 64, decChar stdAlphabet (encChar stdAlphabet n.val) = some n.val := by
  decide

theorem decChar_encChar (n : Nat) (h : n < 64) :
    decChar stdAlphabet (encChar stdAlphabet n) = some n :=
  decChar_encChar_fin ⟨n, h⟩

theorem decChar_PAD : decChar stdAlphabet PAD = none := by decide

theorem decodeQuanta_b64encode (src : Str) :
    decodeQuanta stdAlphabet (b64encode stdAlphabet src) = some src := by
  induction src using b64encode.induct stdAlphabet with
  | case1 => simp [b64encode, decodeQuanta]
  | case2 a =>
    have ha := a.isLt
    simp only [b64encode, decodeQuanta]
    rw [decChar_encChar _ (by omega), decChar_encChar _ (by omega), decChar_PAD]
    simp only [quantum0, and_self, if_true, Option.some.injEq, List.cons.injEq, and_true]
    apply Fin.ext
    simp only [Fin.ofNat, Fin.val_mk]
    omega
  | case3 a b =>
    have ha := a.isLt
    have hb := b.isLt
    simp only [b64encode, decodeQuanta]
    rw [decChar_encChar _ (by omega), decChar_encChar _ (by omega), decChar_encChar _ (by omega),
      decChar_PAD]
    simp only [quantum0, quantum1, and_self, if_true, Option.some.injEq, List.cons.injEq, and_true]
    constructor <;> apply Fin.ext <;> simp only [Fin.ofNat, Fin.val_mk] <;> omega
  | case4 a b c rest ih =>
    have ha := a.isLt
    have hb := b.isLt
    have hc := c.isLt
    simp only [b64encode, decodeQuanta]
    rw [decChar_encChar _ (by omega), decChar_encChar _ (by omega), decChar_encChar _ (by omega),
      decChar_encChar _ (by omega), ih]
    simp only [quantum0, quantum1, quantum2, Option.some.injEq, List.cons.injEq, and_true]
    refine ⟨?_, ?_, ?_⟩ <;> apply Fin.ext <;> simp only [Fin.ofNat, Fin.val_mk] <;> omega

theorem b64decode_b64encode (src : Str) :
    b64decode stdAlphabet (b64encode stdAlphabet src) = some src := by
  have hf : (b64encode stdAlphabet src).filter (fun c => c != NL && c != CR) =
      b64encode stdAlphabet src := by
    rw [List.filter_eq_self]
    intro x hx
    have h1 : x ≠ NL := fun e =>
      b64encode_std_not_mem src NL (by decide) (by decide) (by decide) (e ▸ hx)
    have h2 : x ≠ CR := fun e =>
      b64encode_std_not_mem src CR (by decide) (by decide) (by decide) (e ▸ hx)
    simp [h1, h2]
  rw [b64decode, hf, decodeQuanta_b64encode]

theorem COLON_not_mem_b64encode (src : Str) : COLON ∉ b64encode stdAlphabet src :=
  b64encode_std_not_mem src COLON (by decide) (by decide) (by decide)

/-! ## Decimal round trip -/

theorem digitChar_val (d : Nat) (h : d < 10) : (digitChar d).val = 48 + d := by
  simp only [digitChar, Fin.ofNat, Fin.val_mk]
  omega

theorem spaceWidth_ascii (c : Byte) (rest : Str) (h1 : c.val < 128)
    (h2 : ¬ (c.val = 9 ∨ c.val = 11 ∨ c.val = 12 ∨ c.val = 13 ∨ c.val = 32)) :
    spaceWidth (c :: rest) = 0 := by
  unfold spaceWidth
  simp only [h2, if_false]
  split <;> first | rfl | (exfalso; omega)

theorem skipSpace_ascii (c : Byte) (rest : Str) (h0 : c ≠ NL) (h1 : c.val < 128)
    (h2 : ¬ (c.val = 9 ∨ c.val = 11 ∨ c.val = 12 ∨ c.val = 13 ∨ c.val = 32)) :
    skipSpace (c :: rest) = some (c :: rest) := by
  simp [skipSpace, skipSpaceAux, h0, spaceWidth_ascii c rest h1 h2]

theorem digitsValue_append (xs : Str) (c : Byte) :
    digitsValue (xs ++ [c]) = digitsValue xs * 10 + (c.val - 48) := by
  simp [digitsValue, List.foldl_append]

theorem formatNatAux_spec (fuel n : Nat) (h : n < fuel) :
    formatNatAux fuel n ≠ [] ∧ (∀ x ∈ formatNatAux fuel n, isDigit x = true) ∧
      digitsValue (formatNatAux fuel n) = n := by
  induction fuel generalizing n with
  | zero => omega
  | succ fuel ih =>
    unfold formatNatAux
    by_cases h10 : n < 10
    · simp only [h10, if_true]
      have hv := digitChar_val n h10
      refine ⟨by simp, ?_, ?_⟩
      · intro x hx
        simp only [List.mem_singleton] at hx
        subst hx
        simp only [isDigit, hv, Bool.and_eq_true, decide_eq_true_eq]
        omega
      · simp only [digitsValue, List.foldl_cons, List.foldl_nil, hv]
        omega
    · simp only [h10, if_false]
      obtain ⟨h1, h2, h3⟩ := ih (n / 10) (by omega)
      have hv := digitChar_val (n % 10) (by omega)
      refine ⟨by simp, ?_, ?_⟩
      · intro x hx
        simp only [List.mem_append, List.mem_singleton] at hx
        rcases hx with hx | hx
        · exact h2 x hx
        · subst hx
          simp only [isDigit, hv, Bool.and_eq_true, decide_eq_true_eq]
          omega
      · rw [digitsValue_append, h3, hv]
        omega

theorem formatNat_spec (n : Nat) :
    formatNat n ≠ [] ∧ (∀ x ∈ formatNat n, isDigit x = true) ∧ digitsValue (formatNat n) = n :=
  formatNatAux_spec (n + 1) n (by omega)

theorem isDigit_bounds (x : Byte) (h : isDigit x = true) : 48 ≤ x.val ∧ x.val ≤ 57 := by
  simpa [isDigit] using h

theorem SscanfInt_digits (s : Str) (hne : s ≠ []) (hd : ∀ x ∈ s, isDigit x = true)
    (hr : inInt64 (digitsValue s)) : SscanfInt s = some (digitsValue s : Int) := by
  obtain ⟨c, rest, rfl⟩ := List.exists_cons_of_ne_nil hne
  have hc := isDigit_bounds c (hd c (by simp))
  have hNL : c ≠ NL := by intro e; rw [e] at hc; revert hc; decide
  have hM : c ≠ MINUS := by intro e; rw [e] at hc; revert hc; decide
  have hP : c ≠ PLUS := by intro e; rw [e] at hc; revert hc; decide
  have hsk := skipSpace_ascii c rest hNL (by omega) (by omega)
  have htw : (c :: rest).takeWhile isDigit = c :: rest := by
    rw [List.takeWhile_eq_self_iff]; exact hd
  simp only [SscanfInt, hsk, List.head?_cons, Option.some.injEq, hM, hP, or_self, if_false,
    htw, decide_False, hr, if_true]
  simpa using hr

theorem SscanfInt_neg_digits (s : Str) (hne : s ≠ []) (hd : ∀ x ∈ s, isDigit x = true)
    (hr : inInt64 (-(digitsValue s : Int))) : SscanfInt (MINUS :: s) = some (-(digitsValue s : Int)) := by
  have hsk := skipSpace_ascii MINUS s (by decide) (by decide) (by decide)
  have htw : s.takeWhile isDigit = s := by
    rw [List.takeWhile_eq_self_iff]; exact hd
  simp only [SscanfInt, hsk, List.head?_cons, true_or, if_true, List.tail_cons, htw, hne,
    if_false, decide_True, hr]

theorem SscanfInt_Sprint (d : Int) (h : inInt64 d) : SscanfInt (Sprint d) = some d := by
  obtain ⟨h1, h2, h3⟩ := formatNat_spec d.natAbs
  by_cases hneg : d < 0
  · have e : -((digitsValue (formatNat d.natAbs) : Nat) : Int) = d := by rw [h3]; omega
    simp only [Sprint, hneg, if_true]
    rw [SscanfInt_neg_digits _ h1 h2 (by rw [e]; exact h), e]
  · have e : ((digitsValue (formatNat d.natAbs) : Nat) : Int) = d := by rw [h3]; omega
    simp only [Sprint, hneg, if_false]
    rw [SscanfInt_digits _ h1 h2 (by rw [e]; exact h), e]

theorem NL_not_mem_Sprint (d : Int) : NL ∉ Sprint d := by
  obtain ⟨-, h2, -⟩ := formatNat_spec d.natAbs
  have hn : NL ∉ formatNat d.natAbs := by
    intro hx
    have := isDigit_bounds NL (h2 NL hx)
    revert this
    decide
  unfold Sprint
  split
  · simp only [List.mem_cons, not_or]
    exact ⟨by decide, hn⟩
  · exact hn

/-! ## The body of a message -/

theorem foldl_Split_NL (T init : Str) :
    (Split T NL).foldl (fun acc l => acc ++ (l ++ [NL])) init = init ++ T ++ [NL] := by
  induction T generalizing init with
  | nil => simp [Split]
  | cons c cs ih =>
    by_cases hc : c = NL
    · subst hc
      rw [Split_cons_sep, List.foldl_cons, ih]
      simp
    · obtain ⟨l, ls, hl⟩ := List.exists_cons_of_ne_nil (Split_ne_nil cs NL)
      rw [Split_cons_ne c cs NL l ls hc hl, List.foldl_cons]
      have h2 := ih (init ++ [c])
      rw [hl, List.foldl_cons] at h2
      have e : init ++ (c :: l ++ [NL]) = init ++ [c] ++ (l ++ [NL]) := by simp
      rw [e, h2]
      simp

theorem TrimSuffix_append (a suf : Str) : TrimSuffix (a ++ suf) suf = a := by
  have h : suf.isSuffixOf (a ++ suf) = true := by
    rw [List.isSuffixOf_iff_suffix]
    exact List.suffix_append a suf
  simp [TrimSuffix, h]

theorem Split_Join_cons (a b : Str) (rest : List Str) (sep : Byte) (h : sep ∉ a) :
    Split (Join (a :: b :: rest) [sep]) sep = a :: Split (Join (b :: rest) [sep]) sep := by
  have e : Join (a :: b :: rest) [sep] = a ++ sep :: Join (b :: rest) [sep] := by
    simp [Join]
  rw [e, Split_append_sep a _ sep h]

/-- Lines of the canonical form of a message with single-line fields. -/
theorem Split_String (m : Msg) (ht : NL ∉ m.Tags.String) (he : NL ∉ m.Echo) (hf : NL ∉ m.From)
    (ha : NL ∉ m.Addr) (hto : NL ∉ m.To) (hs : NL ∉ m.Subj) :
    Split m.String NL =
      m.Tags.String :: m.Echo :: Sprint m.Date :: m.From :: m.Addr :: m.To :: m.Subj :: [] ::
        Split m.Text NL := by
  unfold Msg.String
  rw [Split_Join_cons _ _ _ _ ht, Split_Join_cons _ _ _ _ he,
    Split_Join_cons _ _ _ _ (NL_not_mem_Sprint m.Date), Split_Join_cons _ _ _ _ hf,
    Split_Join_cons _ _ _ _ ha, Split_Join_cons _ _ _ _ hto, Split_Join_cons _ _ _ _ hs,
    Split_Join_cons _ _ _ _ (List.not_mem_nil NL)]
  simp [Join]

theorem IsMsgId_ne_nil (id : Str) (h : IsMsgId id = true) : id ≠ [] := by
  intro e
  rw [e] at h
  simp [IsMsgId] at h

/-- `DecodeBundle` on `id:base64` with a valid identifier. -/
theorem DecodeBundle_pair (Sum256 : Str → Digest) (id b data : Str) (hic : COLON ∉ id)
    (hbc : COLON ∉ b) (hi : IsMsgId id = true) (hdec : b64decode stdAlphabet b = some data) :
    DecodeBundle Sum256 (id ++ COLON :: b) =
      DecodeBundle.fields data { Msg.zero with MsgId := id } := by
  have hs := splitId_pair id b hic hbc
  rw [hi] at hs
  simp only [if_true] at hs
  obtain ⟨id2, -, he⟩ := payload_eq Sum256 b data { Msg.zero with MsgId := id } hdec
  rw [DecodeBundle_eq Sum256 _ b _ hs, he]
  simp [IsMsgId_ne_nil id hi]

/-- What `Encode` returns for a message with an echo name. -/
theorem Encode_eq (Sum256 : Str → Digest) (now : Int) (m : Msg) (h : m.Echo ≠ []) :
    ∃ id, (if m.MsgId = [] then
            MsgId Sum256 (Msg.String { m with Date := if m.Date = 0 then now else m.Date }) = some id
          else id = m.MsgId) ∧
      Msg.Encode Sum256 now (some m) =
        some (id ++ COLON ::
            b64encode stdAlphabet (Msg.String { m with Date := if m.Date = 0 then now else m.Date }),
          some { m with Date := if m.Date = 0 then now else m.Date, MsgId := id }) := by
  by_cases hid : m.MsgId = []
  · refine ⟨(Replace (Replace (b64encode stdAlphabet (Sum256 (Msg.String
        { m with Date := if m.Date = 0 then now else m.Date })).val) PLUS UA) SLASH UZ).take 20,
      ?_, ?_⟩
    · simp only [hid, if_true]; exact MsgId_eq _ _
    · by_cases hz : m.Date = 0
      · simp [Msg.Encode, h, hz, hid, Msg.String, MsgId_eq]
      · simp [Msg.Encode, h, hz, hid, Msg.String, MsgId_eq]
  · refine ⟨m.MsgId, by simp [hid], ?_⟩
    by_cases hz : m.Date = 0
    · simp [Msg.Encode, h, hz, hid, Msg.String]
    · simp [Msg.Encode, h, hz, hid, Msg.String]

/-- C1: Encode/DecodeBundle round trip.  For every valid message `m` (its echo
name satisfies `IsEcho`, so it is not empty) `Encode` returns a bundle that
`DecodeBundle` accepts, and the decoded message has the Echo, From, Addr, To,
Subj and Text of `m`, the Date of `m` as left by the lazy fill of `Encode`,
and the `MsgId` that `m` carries after `Encode`. -/
theorem C1_Encode_DecodeBundle_roundtrip (Sum256 : Str → Digest) (now : Int) (m : Msg)
    (hv : m.Valid) (hnow : inInt64 now) :
    ∃ enc m1 m2,
      Msg.Encode Sum256 now (some m) = some (enc, some m1) ∧
      DecodeBundle Sum256 enc = .ok m2 ∧
      m1.Date = (if m.Date = 0 then now else m.Date) ∧
      m2.Echo = m.Echo ∧ m2.Date = m1.Date ∧ m2.From = m.From ∧ m2.Addr = m.Addr ∧
      m2.To = m.To ∧ m2.Subj = m.Subj ∧ m2.Text = m.Text ∧ m2.MsgId = m1.MsgId := by
  obtain ⟨hid, htl, htp, hecho, hdate, hel, hfl, hal, htol, hsl⟩ := hv
  have hne : m.Echo ≠ [] := by
    intro e
    rw [e] at hecho
    simp [IsEcho] at hecho
  obtain ⟨id, hidv, henc⟩ := Encode_eq Sum256 now m hne
  have hd : inInt64 (if m.Date = 0 then now else m.Date) := by
    split
    · exact hnow
    · exact hdate
  have hidok : IsMsgId id = true ∧ COLON ∉ id := by
    by_cases he : m.MsgId = []
    · simp only [he, if_true] at hidv
      exact ⟨MsgId_IsMsgId _ _ _ hidv, (MsgId_props _ _ _ hidv).2.2.2.2⟩
    · simp only [he, if_false] at hidv
      rcases hid with h | h
      · exact absurd h he
      · rw [hidv]; exact h
  obtain ⟨tags, htags⟩ : ∃ tags, MakeTags m.Tags.String = some (tags, none) := by
    cases hm : MakeTags m.Tags.String with
    | none => simp [hm] at htp
    | some r =>
      obtain ⟨t, e⟩ := r
      simp only [hm, Option.map_some', Option.some.injEq] at htp
      exact ⟨t, by rw [← htp]⟩
  have hsplit := Split_String { m with Date := if m.Date = 0 then now else m.Date }
    htl hel hfl hal htol hsl
  obtain ⟨l, ls, hl⟩ := List.exists_cons_of_ne_nil (Split_ne_nil m.Text NL)
  have hbody : bodyLines (Split (Msg.String { m with Date := if m.Date = 0 then now else m.Date })
      NL) 8 = m.Text ++ [NL] := by
    rw [hsplit]
    simp only [bodyLines, List.drop_succ_cons, List.drop_zero]
    rw [foldl_Split_NL]
    simp
  simp only [hl] at hsplit
  have hdec := DecodeBundle_pair Sum256 id _ _ hidok.2 (COLON_not_mem_b64encode _) hidok.1
    (b64decode_b64encode (Msg.String { m with Date := if m.Date = 0 then now else m.Date }))
  rw [fields_cons _ _ _ _ _ _ _ _ _ _ _ _ hsplit] at hdec
  simp only [htags, hecho, if_true, SscanfInt_Sprint _ hd, hbody, TrimSuffix_append] at hdec
  exact ⟨_, _, _, henc, hdec, rfl, rfl, rfl, rfl, rfl, rfl, rfl, rfl, rfl⟩

theorem C1_Encode_DecodeBundle_roundtrip_witness :
    sampleMsgWithId.Valid ∧ sampleMsg.Valid ∧
    (∃ enc m1 m2,
      Msg.Encode zeroSum256 1700000000 (some sampleMsgWithId) = some (enc, some m1) ∧
      DecodeBundle zeroSum256 enc = .ok m2 ∧
      m1.Date = (if sampleMsgWithId.Date = 0 then 1700000000 else sampleMsgWithId.Date) ∧
      m2.Echo = sampleMsgWithId.Echo ∧ m2.Date = m1.Date ∧ m2.From = sampleMsgWithId.From ∧
      m2.Addr = sampleMsgWithId.Addr ∧ m2.To = sampleMsgWithId.To ∧
      m2.Subj = sampleMsgWithId.Subj ∧ m2.Text = sampleMsgWithId.Text ∧ m2.MsgId = m1.MsgId) :=
  ⟨by decide, by decide,
    C1_Encode_DecodeBundle_roundtrip zeroSum256 1700000000 sampleMsgWithId (by decide) (by decide)⟩

/-- C3 as stated fails: after `MakeTags("a/b")` and a successful
`Add("c/d ")` the value of `c` is `"d "`, the tag set prints as `a/b/c/d `,
and `MakeTags` of that text maps `c` to `"d"`. -/
theorem C3_Add_trailing_space_counterexample :
    (buildTags (str "a/b") [str "c/d "]).map (fun t => t.Hash.bind (fun h => h (str "c"))) =
        some (some (str "d ")) ∧
    (buildTags (str "a/b") [str "c/d "]).map Tags.String = some (str "a/b/c/d ") ∧
    (MakeTags (str "a/b/c/d ")).map (fun r => (r.1.Hash.bind (fun h => h (str "c")), r.2)) =
        some (some (str "d"), none) := by
  decide

/-! ## Lemmas on tag sets -/

theorem addPairs_eq (toks : List Str) (g : StrMap) (acc : List Str) (h : toks.length % 2 = 0) :
    addPairs toks ⟨some g, acc⟩ = some ⟨some (pairsMap g toks), acc ++ evens toks⟩ := by
  induction toks using evens.induct generalizing g acc with
  | case1 => simp [addPairs, pairsMap, evens]
  | case2 k => simp at h
  | case3 k v rest ih =>
    have h2 : rest.length % 2 = 0 := by
      simp only [List.length_cons] at h
      omega
    simp only [addPairs, pairsMap, evens]
    rw [ih _ _ h2]
    simp

theorem addPairs_nil_map (toks : List Str) (acc : List Str) (h : toks ≠ []) :
    addPairs toks ⟨none, acc⟩ = none := by
  match toks, h with
  | [k], _ => simp [addPairs]
  | k :: v :: rest, _ => simp [addPairs]

theorem evens_subset (toks : List Str) : ∀ x ∈ evens toks, x ∈ toks := by
  induction toks using evens.induct with
  | case1 => simp [evens]
  | case2 k => simp [evens]
  | case3 k v rest ih =>
    intro x hx
    simp only [evens, List.mem_cons] at hx ⊢
    rcases hx with hx | hx
    · exact Or.inl hx
    · exact Or.inr (Or.inr (ih x hx))

theorem evens_ne_nil (toks : List Str) (h : toks ≠ []) : evens toks ≠ [] := by
  match toks, h with
  | [k], _ => simp [evens]
  | k :: v :: rest, _ => simp [evens]

theorem evens_head (toks : List Str) : (evens toks).head? = toks.head? := by
  match toks with
  | [] => simp [evens]
  | [k] => simp [evens]
  | k :: v :: rest => simp [evens]

theorem pairsMap_not_mem (toks : List Str) (g : StrMap) (x : Str) (h : x ∉ evens toks) :
    pairsMap g toks x = g x := by
  induction toks using evens.induct generalizing g with
  | case1 => simp [pairsMap]
  | case2 k => simp [pairsMap]
  | case3 k v rest ih =>
    simp only [evens, List.mem_cons, not_or] at h
    simp only [pairsMap]
    rw [ih _ h.2]
    simp [StrMap.set, h.1]

theorem pairsMap_some (Q : Str → Prop) (toks : List Str) (g : StrMap) (x : Str)
    (hl : toks.length % 2 = 0) (hQ : ∀ t ∈ toks, Q t)
    (h : (∃ v, g x = some v ∧ Q v) ∨ x ∈ evens toks) :
    ∃ v, pairsMap g toks x = some v ∧ Q v := by
  induction toks using evens.induct generalizing g with
  | case1 =>
    simp only [evens, List.not_mem_nil, or_false] at h
    simpa [pairsMap] using h
  | case2 k => simp at hl
  | case3 k v rest ih =>
    have h2 : rest.length % 2 = 0 := by
      simp only [List.length_cons] at hl
      omega
    simp only [pairsMap]
    apply ih _ h2 (fun t ht => hQ t (by simp [ht]))
    by_cases hx : x = k
    · left
      exact ⟨v, by simp [StrMap.set, hx], hQ v (by simp)⟩
    · rcases h with ⟨w, hw, hq⟩ | h
      · left
        exact ⟨w, by simp [StrMap.set, hx, hw], hq⟩
      · right
        simp only [evens, List.mem_cons] at h
        rcases h with h | h
        · exact absurd h hx
        · exact h

theorem pairsMap_last (toks : List Str) (g : StrMap) (hl : toks.length % 2 = 0)
    (hne : toks ≠ []) :
    ∃ k v, (evens toks).getLast? = some k ∧ toks.getLast? = some v ∧
      pairsMap g toks k = some v := by
  induction toks using evens.induct generalizing g with
  | case1 => exact absurd rfl hne
  | case2 k => simp at hl
  | case3 k v rest ih =>
    have h2 : rest.length % 2 = 0 := by
      simp only [List.length_cons] at hl
      omega
    by_cases hr : rest = []
    · subst hr
      exact ⟨k, v, by simp [evens], by simp, by simp [pairsMap, StrMap.set]⟩
    · obtain ⟨k2, v2, hk, hv, hp⟩ := ih (g.set k v) h2 hr
      refine ⟨k2, v2, ?_, ?_, ?_⟩
      · simp only [evens]
        rw [List.getLast?_cons, hk]
        rfl
      · rw [List.getLast?_cons_cons, List.getLast?_cons, hv]
        rfl
      · simpa [pairsMap] using hp


/-! ## Lemmas on `Trim` -/

theorem dropWhile_head (c : Byte) (s : Str) : (s.dropWhile (· == c)).head? ≠ some c := by
  intro h
  have := List.head?_dropWhile_not (· == c) s
  rw [h] at this
  simp at this

theorem dropWhile_eq_self_of_head (c : Byte) (s : Str) (h : s.head? ≠ some c) :
    s.dropWhile (· == c) = s := by
  cases s with
  | nil => rfl
  | cons a as =>
    have : a ≠ c := fun e => h (by simp [e])
    simp [List.dropWhile_cons, this]

theorem Trim_getLast (s : Str) (c : Byte) : (Trim s c).getLast? ≠ some c := by
  unfold Trim
  rw [List.getLast?_reverse]
  exact dropWhile_head c _

theorem dropWhile_append_single (c a : Byte) (l : Str) (h : a ≠ c) :
    (l ++ [a]).dropWhile (· == c) = l.dropWhile (· == c) ++ [a] := by
  induction l with
  | nil => simp [List.dropWhile_cons, h]
  | cons b bs ih =>
    by_cases hb : b = c
    · simp [List.dropWhile_cons, hb, ← ih]
    · simp [List.dropWhile_cons, hb]

theorem Trim_head (s : Str) (c : Byte) : (Trim s c).head? ≠ some c := by
  unfold Trim
  cases hX : s.dropWhile (· == c) with
  | nil => simp
  | cons a X =>
    have ha : a ≠ c := by
      intro e
      have := dropWhile_head c s
      rw [hX] at this
      exact this (by simp [e])
    rw [List.reverse_cons, dropWhile_append_single c a _ ha]
    simp [ha]

theorem Trim_eq_self (s : Str) (c : Byte) (h1 : s.head? ≠ some c) (h2 : s.getLast? ≠ some c) :
    Trim s c = s := by
  unfold Trim
  rw [dropWhile_eq_self_of_head c s h1, dropWhile_eq_self_of_head c s.reverse (by simpa using h2)]
  simp

/-! ## Ends of `Split` and `Join` -/

theorem Split_head (s : Str) (sep : Byte) (l : Str) (ls : List Str) (h : Split s sep = l :: ls)
    (c : Byte) (hc : l.head? = some c) : s.head? = some c := by
  cases s with
  | nil =>
    simp only [Split, List.cons.injEq] at h
    rw [← h.1] at hc
    simp at hc
  | cons a as =>
    by_cases ha : a = sep
    · subst ha
      rw [Split_cons_sep] at h
      simp only [List.cons.injEq] at h
      rw [← h.1] at hc
      simp at hc
    · obtain ⟨l2, ls2, hl⟩ := List.exists_cons_of_ne_nil (Split_ne_nil as sep)
      rw [Split_cons_ne a as sep l2 ls2 ha hl] at h
      simp only [List.cons.injEq] at h
      rw [← h.1] at hc
      simpa using hc

theorem Split_getLast (s : Str) (sep : Byte) (l : Str) (h : (Split s sep).getLast? = some l)
    (c : Byte) (hc : l.getLast? = some c) : s.getLast? = some c := by
  induction s generalizing l with
  | nil =>
    simp only [Split, List.getLast?_singleton, Option.some.injEq] at h
    rw [← h] at hc
    simp at hc
  | cons a as ih =>
    obtain ⟨l2, ls2, hl⟩ := List.exists_cons_of_ne_nil (Split_ne_nil as sep)
    by_cases ha : a = sep
    · subst ha
      rw [Split_cons_sep, hl, List.getLast?_cons_cons, ← hl] at h
      have := ih l h hc
      rw [List.getLast?_cons, this]
      rfl
    · rw [Split_cons_ne a as sep l2 ls2 ha hl] at h
      cases ls2 with
      | nil =>
        simp only [List.getLast?_singleton, Option.some.injEq] at h
        have has : as = l2 := by
          have := Join_Split as sep
          rw [hl] at this
          simpa [Join] using this.symm
        rw [has, ← hc, ← h]
      | cons b bs =>
        rw [List.getLast?_cons_cons] at h
        have := ih l (by rw [hl, List.getLast?_cons_cons]; exact h) hc
        rw [List.getLast?_cons, this]
        rfl

theorem Split_Join (l : List Str) (sep : Byte) (hne : l ≠ []) (h : ∀ x ∈ l, sep ∉ x) :
    Split (Join l [sep]) sep = l := by
  induction l with
  | nil => exact absurd rfl hne
  | cons a rest ih =>
    cases rest with
    | nil =>
      simp only [Join]
      exact Split_no_sep a sep (h a (by simp))
    | cons b rest2 =>
      rw [Split_Join_cons a b rest2 sep (h a (by simp)),
        ih (by simp) (fun x hx => h x (by simp [hx]))]

theorem slashed_eq (toks : List Str) (hne : toks ≠ []) :
    slashed toks = Join toks [SLASH] ++ [SLASH] := by
  induction toks with
  | nil => exact absurd rfl hne
  | cons a rest ih =>
    cases rest with
    | nil => simp [slashed, Join]
    | cons b rest2 =>
      rw [slashed, ih (by simp)]
      simp [Join]

theorem Join_append_single (init : List Str) (v sep : Str) (hne : init ≠ []) :
    Join (init ++ [v]) sep = Join init sep ++ sep ++ v := by
  induction init with
  | nil => exact absurd rfl hne
  | cons a rest ih =>
    cases rest with
    | nil => simp [Join]
    | cons b rest2 =>
      have := ih (by simp)
      simp only [List.cons_append] at this ⊢
      simp only [Join, this]
      simp


/-! ## `MakeTags`, `Add` and `String` in closed form -/

theorem MakeTags_eq (s : Str) :
    MakeTags s =
      if Trim s SP = [] then some (Tags.zero, none)
      else if (Split (Trim s SP) SLASH).length % 2 ≠ 0 then
        some (Tags.zero, some (.errorsNew (str "Wrong tags: " ++ Trim s SP)))
      else
        some (⟨some (pairsMap StrMap.empty (Split (Trim s SP) SLASH)),
          evens (Split (Trim s SP) SLASH)⟩, none) := by
  unfold MakeTags
  by_cases h1 : Trim s SP = []
  · simp [h1]
  · by_cases h2 : (Split (Trim s SP) SLASH).length % 2 = 0
    · simp [h1, h2, addPairs_eq _ _ _ h2, Tags.zero]
    · simp [h1, h2]

theorem Add_eq (t : Tags) (a : Str) :
    t.Add a =
      if (Split a SLASH).length % 2 ≠ 0 then some (t, some (.errorsNew (str "Wrong tags")))
      else
        match t.Hash with
        | none => none
        | some h => some (⟨some (pairsMap h (Split a SLASH)), t.List ++ evens (Split a SLASH)⟩, none) := by
  unfold Tags.Add
  by_cases h2 : (Split a SLASH).length % 2 = 0
  · obtain ⟨hash, list⟩ := t
    cases hash with
    | none => simp [h2, addPairs_nil_map _ _ (Split_ne_nil a SLASH)]
    | some h => simp [h2, addPairs_eq _ _ _ h2]
  · simp [h2]

/-- The tag set after pairs of slash-free tokens were appended to a
well-formed state is well formed, and the last key maps to the last token. -/
theorem Wf_pairs (toks : List Str) (g : StrMap) (L : List Str) (hl : toks.length % 2 = 0)
    (hne : toks ≠ []) (hQ : ∀ x ∈ toks, SLASH ∉ x)
    (hL : ∀ k ∈ L, SLASH ∉ k ∧ ∃ v, g k = some v ∧ SLASH ∉ v)
    (hg : ∀ x, x ∉ L → g x = none)
    (hh : ∀ k, (L ++ evens toks).head? = some k → k.head? ≠ some SP) :
    Tags.Wf ⟨some (pairsMap g toks), L ++ evens toks⟩ ∧
    ((∀ v, toks.getLast? = some v → v.getLast? ≠ some SP) →
      Tags.lastValueTrimmed ⟨some (pairsMap g toks), L ++ evens toks⟩) := by
  constructor
  · refine ⟨_, rfl, ?_, ?_, ?_, hh⟩
    · simp [evens_ne_nil toks hne]
    · intro k hk
      simp only [List.mem_append] at hk
      constructor
      · rcases hk with hk | hk
        · exact (hL k hk).1
        · exact hQ k (evens_subset toks k hk)
      · apply pairsMap_some (fun v => SLASH ∉ v) toks g k hl hQ
        rcases hk with hk | hk
        · exact Or.inl (hL k hk).2
        · exact Or.inr hk
    · intro x hx
      simp only [List.mem_append, not_or] at hx
      rw [pairsMap_not_mem toks g x hx.2]
      exact hg x hx.1
  · intro hv h k v hh2 hk hkv
    simp only [Option.some.injEq] at hh2
    subst hh2
    obtain ⟨k2, v2, hk2, hv2, hp⟩ := pairsMap_last toks g hl hne
    simp only [List.getLast?_append, hk2, Option.or_some] at hk
    simp only [Option.some.injEq] at hk
    subst hk
    rw [hp] at hkv
    simp only [Option.some.injEq] at hkv
    subst hkv
    exact hv _ hv2

theorem Wf_MakeTags (s : Str) (t : Tags) (h : MakeTags s = some (t, none)) :
    t = Tags.zero ∨ (t.Wf ∧ t.lastValueTrimmed) := by
  rw [MakeTags_eq] at h
  by_cases h1 : Trim s SP = []
  · simp only [h1, if_true, Option.some.injEq, Prod.mk.injEq, and_true] at h
    exact Or.inl h.symm
  · by_cases h2 : (Split (Trim s SP) SLASH).length % 2 = 0
    · simp only [h1, h2, if_false, ne_eq, not_true_eq_false, Option.some.injEq, Prod.mk.injEq,
        and_true] at h
      right
      rw [← h]
      have hw := Wf_pairs (Split (Trim s SP) SLASH) StrMap.empty [] h2 (Split_ne_nil _ _)
        (Split_mem_no_sep _ _) (by simp) (by simp [StrMap.empty]) (by
          intro k hk
          simp only [List.nil_append, evens_head] at hk
          obtain ⟨l, ls, hl⟩ := List.exists_cons_of_ne_nil (Split_ne_nil (Trim s SP) SLASH)
          rw [hl] at hk
          simp only [List.head?_cons, Option.some.injEq] at hk
          subst hk
          intro hsp
          exact Trim_head s SP (Split_head _ _ _ _ hl SP hsp))
      simp only [List.nil_append] at hw
      refine ⟨hw.1, hw.2 ?_⟩
      intro v hv hsp
      exact Trim_getLast s SP (Split_getLast _ _ v hv SP hsp)
    · simp [h1, h2] at h

theorem Wf_Add (t t1 : Tags) (a : Str) (hw : t.Wf) (h : t.Add a = some (t1, none)) :
    t1.Wf ∧ (a.getLast? ≠ some SP → t1.lastValueTrimmed) := by
  obtain ⟨g, hg, hne, hL, hnone, hhead⟩ := hw
  rw [Add_eq] at h
  by_cases h2 : (Split a SLASH).length % 2 = 0
  · simp only [h2, ne_eq, not_true_eq_false, if_false, hg, Option.some.injEq, Prod.mk.injEq,
      and_true] at h
    rw [← h]
    have hw := Wf_pairs (Split a SLASH) g t.List h2 (Split_ne_nil _ _) (Split_mem_no_sep _ _)
      hL hnone (by
        intro k hk
        rw [List.head?_append_of_ne_nil _ hne] at hk
        exact hhead k hk)
    refine ⟨hw.1, fun ha => hw.2 ?_⟩
    intro v hv hsp
    exact ha (Split_getLast _ _ v hv SP hsp)
  · simp [h2] at h

theorem zero_Add (a : Str) (t1 : Tags) : Tags.zero.Add a ≠ some (t1, none) := by
  rw [Add_eq]
  by_cases h2 : (Split a SLASH).length % 2 = 0
  · simp [h2, Tags.zero]
  · simp [h2]

theorem tagTokens_append (h : StrMap) (A B : List Str) :
    tagTokens h (A ++ B) = tagTokens h A ++ tagTokens h B := by
  induction A with
  | nil => simp [tagTokens]
  | cons a as ih => simp [tagTokens, ih]

theorem foldl_String (f : Str → Str → Str) (h : StrMap) (L : List Str) (init : Str)
    (hf : ∀ text n v, h n = some v → f text n = text ++ (n ++ [SLASH] ++ v ++ [SLASH]))
    (hL : ∀ k ∈ L, ∃ v, h k = some v) :
    L.foldl f init = init ++ slashed (tagTokens h L) := by
  induction L generalizing init with
  | nil => simp [tagTokens, slashed]
  | cons k rest ih =>
    obtain ⟨v, hv⟩ := hL k (by simp)
    rw [List.foldl_cons, ih _ (fun x hx => hL x (by simp [hx])), hf init k v hv]
    simp [hv, tagTokens, slashed]

theorem tagTokens_free (h : StrMap) (M : List Str)
    (hM : ∀ k ∈ M, SLASH ∉ k ∧ ∃ v, h k = some v ∧ SLASH ∉ v) :
    ∀ x ∈ tagTokens h M, SLASH ∉ x := by
  induction M with
  | nil => simp [tagTokens]
  | cons k rest ih =>
    intro x hx
    simp only [tagTokens, List.mem_cons] at hx
    rcases hx with hx | hx | hx
    · rw [hx]; exact (hM k (by simp)).1
    · obtain ⟨v, hv, hs⟩ := (hM k (by simp)).2
      rw [hx, hv]
      exact hs
    · exact ih (fun y hy => hM y (by simp [hy])) x hx

theorem pairsMap_tagTokens (h g : StrMap) (L : List Str) (hL : ∀ k ∈ L, ∃ v, h k = some v) :
    pairsMap g (tagTokens h L) = fun x => if x ∈ L then h x else g x := by
  induction L generalizing g with
  | nil => simp [tagTokens, pairsMap]
  | cons k rest ih =>
    obtain ⟨v, hv⟩ := hL k (by simp)
    simp only [tagTokens, pairsMap]
    rw [ih _ (fun x hx => hL x (by simp [hx]))]
    funext x
    by_cases hx : x ∈ rest
    · simp [hx]
    · by_cases hk : x = k
      · subst hk
        simp [hx, StrMap.set, hv]
      · simp [hx, hk, StrMap.set]

theorem evens_tagTokens (h : StrMap) (L : List Str) : evens (tagTokens h L) = L := by
  induction L with
  | nil => simp [tagTokens, evens]
  | cons k rest ih => simp [tagTokens, evens, ih]

theorem length_tagTokens (h : StrMap) (L : List Str) : (tagTokens h L).length % 2 = 0 := by
  induction L with
  | nil => simp [tagTokens]
  | cons k rest ih =>
    simp only [tagTokens, List.length_cons]
    omega

/-- A well-formed tag set whose last value does not end in a space is
reconstructed by `MakeTags` from its `String`. -/
theorem MakeTags_String_of_Wf (t : Tags) (hw : t.Wf) (hv : t.lastValueTrimmed) :
    MakeTags t.String = some (t, none) := by
  obtain ⟨hash, L⟩ := t
  obtain ⟨h, hh, hne, hL, hnone, hhead⟩ := hw
  simp only at hh hne hL hnone hhead
  subst hh
  have hLs : ∀ k ∈ L, ∃ v, h k = some v := fun k hk =>
    let ⟨v, hv, _⟩ := (hL k hk).2; ⟨v, hv⟩
  obtain ⟨k0, L1, rfl⟩ := List.exists_cons_of_ne_nil hne
  have htne : tagTokens h (k0 :: L1) ≠ [] := by simp [tagTokens]
  have hstr : Tags.String ⟨some h, k0 :: L1⟩ = Join (tagTokens h (k0 :: L1)) [SLASH] := by
    simp only [Tags.String]
    rw [foldl_String _ h (k0 :: L1) [] (by intro text n v hv; simp [hv]) hLs, List.nil_append,
      slashed_eq _ htne, TrimSuffix_append]
  have hfree : ∀ x ∈ tagTokens h (k0 :: L1), SLASH ∉ x := tagTokens_free h _ hL
  have hhd : (Join (tagTokens h (k0 :: L1)) [SLASH]).head? ≠ some SP := by
    have hk0 := hhead k0 (by simp)
    simp only [tagTokens, Join, List.append_assoc, List.head?_append, List.singleton_append,
      List.head?_cons]
    cases hk : k0.head? with
    | none => simp; decide
    | some c =>
      rw [hk] at hk0
      simpa using hk0
  have hlast : (Join (tagTokens h (k0 :: L1)) [SLASH]).getLast? ≠ some SP := by
    obtain ⟨L0, kl, hLeq⟩ : ∃ L0 kl, k0 :: L1 = L0 ++ [kl] := by
      rcases List.eq_nil_or_concat (k0 :: L1) with h0 | ⟨L0, kl, h0⟩
      · simp at h0
      · exact ⟨L0, kl, by simpa using h0⟩
    obtain ⟨vl, hvl⟩ := hLs kl (by rw [hLeq]; simp)
    have hvsp := hv h kl vl rfl (by simp only; rw [hLeq]; simp) hvl
    rw [hLeq, tagTokens_append]
    have e : tagTokens h L0 ++ tagTokens h [kl] = (tagTokens h L0 ++ [kl]) ++ [vl] := by
      simp [tagTokens, hvl]
    rw [e, Join_append_single _ _ _ (by simp)]
    simp only [List.getLast?_append]
    cases hvlast : vl.getLast? with
    | none => simp; decide
    | some c =>
      rw [hvlast] at hvsp
      simpa using hvsp
  have hJne : Join (tagTokens h (k0 :: L1)) [SLASH] ≠ [] := by
    simp [tagTokens, Join]
  rw [hstr, MakeTags_eq, Trim_eq_self _ SP hhd hlast, Split_Join _ SLASH htne hfree]
  have hfun : (fun x => if x ∈ k0 :: L1 then h x else StrMap.empty x) = h := by
    funext x
    by_cases hx : x ∈ k0 :: L1
    · simp [hx]
    · simp only [hx, if_false, StrMap.empty]
      exact (hnone x hx).symm
  simp only [hJne, if_false, length_tagTokens, ne_eq, not_true_eq_false, evens_tagTokens,
    pairsMap_tagTokens h StrMap.empty (k0 :: L1) hLs, hfun]

theorem addAll_Wf (adds : List Str) (t t1 : Tags) (hw : t.Wf) (h : addAll t adds = some t1)
    (hsp : ∀ a, adds.getLast? = some a → a.getLast? ≠ some SP) (hv : adds = [] → t.lastValueTrimmed) :
    t1.Wf ∧ t1.lastValueTrimmed := by
  induction adds generalizing t with
  | nil =>
    simp only [addAll, Option.some.injEq] at h
    subst h
    exact ⟨hw, hv rfl⟩
  | cons a rest ih =>
    simp only [addAll] at h
    cases hA : t.Add a with
    | none => simp [hA] at h
    | some r =>
      obtain ⟨t2, e⟩ := r
      cases e with
      | some err => simp [hA] at h
      | none =>
        simp only [hA] at h
        obtain ⟨hw2, hv2⟩ := Wf_Add t t2 a hw hA
        apply ih t2 hw2 h
        · intro b hb
          apply hsp b
          cases rest with
          | nil => simp at hb
          | cons c cs => rw [List.getLast?_cons_cons]; exact hb
        · intro hr
          subst hr
          exact hv2 (hsp a (by simp))

/-- C3, amended: for every tag set `t` built by a successful `MakeTags`,
optionally followed by successful `Add` calls the last of which was given a
string that does not end in a space, `MakeTags(t.String())` succeeds and
returns a tag set with the same key order (`List`) and the same key-to-value
mapping (`Hash`) as `t`. -/
theorem C3_tags_roundtrip (s : Str) (adds : List Str) (t : Tags)
    (hb : buildTags s adds = some t)
    (hsp : adds.getLast?.bind List.getLast? ≠ some SP) :
    ∃ t2, MakeTags t.String = some (t2, none) ∧ t2.List = t.List ∧ t2.Hash = t.Hash := by
  refine ⟨t, ?_, rfl, rfl⟩
  unfold buildTags at hb
  cases hm : MakeTags s with
  | none => simp [hm] at hb
  | some r =>
    obtain ⟨t0, e⟩ := r
    cases e with
    | some err => simp [hm] at hb
    | none =>
      simp only [hm] at hb
      rcases Wf_MakeTags s t0 hm with h0 | ⟨hw, hv⟩
      · subst h0
        cases adds with
        | nil =>
          simp only [addAll, Option.some.injEq] at hb
          subst hb
          rfl
        | cons a rest =>
          simp only [addAll] at hb
          cases hA : Tags.zero.Add a with
          | none => simp [hA] at hb
          | some r2 =>
            obtain ⟨t3, e3⟩ := r2
            cases e3 with
            | some err => simp [hA] at hb
            | none => exact absurd hA (zero_Add a t3)
      · obtain ⟨hw1, hv1⟩ := addAll_Wf adds t0 t hw hb
          (fun a ha => by
            intro hc
            apply hsp
            simp [ha, hc])
          (fun _ => hv)
        exact MakeTags_String_of_Wf t hw1 hv1

theorem C3_tags_roundtrip_witness :
    ∃ t, buildTags (str " a/b /a/c ") [str "c/d e", str " x/ y"] = some t ∧
      t.String = str "a/c/a/c/c/d e/ x/ y" ∧
      ∃ t2, MakeTags t.String = some (t2, none) ∧ t2.List = t.List ∧ t2.Hash = t.Hash :=
  ⟨_, rfl, by decide,
    C3_tags_roundtrip (str " a/b /a/c ") [str "c/d e", str " x/ y"] _ rfl (by decide)⟩

/-! ## `DecodeMsgline` in closed form -/

theorem MakeTags_iiOk : MakeTags (str "ii/ok") = some (iiOkTags, none) := by
  rw [MakeTags_eq]
  rfl

theorem Split_repto (line4 : Str) (h : HasPrefix line4 (str "@repto:") = true) :
    ∃ r, line4 = str "@repto:" ++ r ∧
      ∃ x xs, Split r COLON = x :: xs ∧ Split line4 COLON = str "@repto" :: x :: xs := by
  simp only [HasPrefix, List.isPrefixOf_iff_prefix] at h
  obtain ⟨r, hr⟩ := h
  obtain ⟨x, xs, hx⟩ := List.exists_cons_of_ne_nil (Split_ne_nil r COLON)
  refine ⟨r, hr.symm, x, xs, hx, ?_⟩
  have e : line4 = str "@repto" ++ COLON :: r := by rw [← hr]; rfl
  rw [e, Split_append_sep _ _ _ (by decide), hx]

theorem iiOk_Add (s : Str) :
    iiOkTags.Add s =
      if (Split s SLASH).length % 2 ≠ 0 then some (iiOkTags, some (.errorsNew (str "Wrong tags")))
      else
        some (⟨some (pairsMap (pairsMap StrMap.empty [str "ii", str "ok"]) (Split s SLASH)),
          [str "ii"] ++ evens (Split s SLASH)⟩, none) := by
  rw [Add_eq]
  rfl

theorem iiOk_Add_fst (s : Str) :
    ∃ e, iiOkTags.Add (str "repto/" ++ s) =
      some (if (Split (str "repto/" ++ s) SLASH).length % 2 ≠ 0 then iiOkTags
        else ⟨some (pairsMap (pairsMap StrMap.empty [str "ii", str "ok"])
              (Split (str "repto/" ++ s) SLASH)),
            [str "ii"] ++ evens (Split (str "repto/" ++ s) SLASH)⟩, e) := by
  rw [iiOk_Add]
  by_cases h : (Split (str "repto/" ++ s) SLASH).length % 2 = 0
  · exact ⟨none, by simp [h]⟩
  · exact ⟨some (.errorsNew (str "Wrong tags")), by simp [h]⟩

theorem DecodeMsgline_none (now : Int) (msg : Str) (enc : Bool)
    (hd : msglineData msg enc = none) :
    DecodeMsgline now msg enc = .error (.error .corruptInput) := by
  cases enc with
  | false => simp [msglineData] at hd
  | true =>
    cases h1 : b64decode stdAlphabet msg with
    | some d => simp [msglineData, h1] at hd
    | none =>
      simp only [msglineData, h1, if_true] at hd
      simp [DecodeMsgline, h1, hd, bind, Except.bind, throw, throwThe, MonadExceptOf.throw]

theorem DecodeMsgline_short (now : Int) (msg : Str) (enc : Bool) (data : Str)
    (hd : msglineData msg enc = some data) (hl : (Split data NL).length < 5) :
    DecodeMsgline now msg enc = failNew (str "Wrong message format") := by
  cases enc with
  | false =>
    simp only [msglineData, Bool.false_eq_true, if_false, Option.some.injEq] at hd
    subst hd
    simp [DecodeMsgline, hl, bind, Except.bind, pure, Except.pure]
  | true =>
    cases h1 : b64decode stdAlphabet msg with
    | some d =>
      simp only [msglineData, h1, if_true, Option.some.injEq] at hd
      subst hd
      simp [DecodeMsgline, h1, hl, bind, Except.bind, pure, Except.pure]
    | none =>
      simp only [msglineData, h1, if_true] at hd
      simp [DecodeMsgline, h1, hd, hl, bind, Except.bind, pure, Except.pure]

theorem DecodeMsgline_cons (now : Int) (msg : Str) (enc : Bool) (data : Str)
    (t0 t1 t2 t3 t4 : Str) (rest : List Str)
    (hd : msglineData msg enc = some data)
    (hs : Split data NL = t0 :: t1 :: t2 :: t3 :: t4 :: rest) :
    DecodeMsgline now msg enc =
      if t3 ≠ [] then failNew (str "No body delimiter in message")
      else if IsEcho t0 then
        .ok { MsgId := [], Tags := msglineTags t4, Echo := t0, Date := now, From := [],
              Addr := [], To := t1, Subj := t2,
              Text := TrimSuffix (bodyLines (Split data NL) (msglineStart t4)) [NL] }
      else failNew (str "Wrong echoarea format") := by
  have key : ∀ d, Split d NL = t0 :: t1 :: t2 :: t3 :: t4 :: rest →
      (do
        let text := Split d NL
        if text.length < 5 then (failNew (str "Wrong message format") : Except Fault Msg)
        else
          let text3 ← index text 3
          if text3 ≠ [] then failNew (str "No body delimiter in message")
          else
            let m := { Msg.zero with Echo := ← index text 0 }
            if !IsEcho m.Echo then failNew (str "Wrong echoarea format")
            else
              let m := { m with To := ← index text 1 }
              let m := { m with Subj := ← index text 2 }
              let m := { m with Date := now }
              let repto ← index text 4
              let (tags, _) ← orPanic (MakeTags (str "ii/ok"))
              let m := { m with Tags := tags }
              if HasPrefix repto (str "@repto:") then
                let repto := Trim (← index (Split repto COLON) 1) SP
                let (tags, _) ← orPanic (m.Tags.Add (str "repto/" ++ repto))
                let m := { m with Tags := tags }
                let m := { m with Text := bodyLines text 5 }
                pure { m with Text := TrimSuffix m.Text [NL] }
              else
                let m := { m with Text := bodyLines text 4 }
                pure { m with Text := TrimSuffix m.Text [NL] }) =
      (if t3 ≠ [] then failNew (str "No body delimiter in message")
      else if IsEcho t0 then
        .ok { MsgId := [], Tags := msglineTags t4, Echo := t0, Date := now, From := [],
              Addr := [], To := t1, Subj := t2,
              Text := TrimSuffix (bodyLines (Split d NL) (msglineStart t4)) [NL] }
      else failNew (str "Wrong echoarea format")) := by
    intro d hsd
    by_cases h3 : t3 = []
    · by_cases he : IsEcho t0 = true
      · by_cases hp : HasPrefix t4 (str "@repto:") = true
        · obtain ⟨r, -, x, xs, -, hx⟩ := Split_repto t4 hp
          obtain ⟨e, hadd⟩ := iiOk_Add_fst (Trim x SP)
          simp [hsd, index, h3, he, hp, hx, MakeTags_iiOk, orPanic, hadd, bind, Except.bind,
            pure, Except.pure, msglineTags, msglineStart, reptoValue, Msg.zero]
        · simp [hsd, index, h3, he, hp, MakeTags_iiOk, orPanic, bind, Except.bind,
            pure, Except.pure, msglineTags, msglineStart, Msg.zero]
      · simp [hsd, index, h3, he, bind, Except.bind, pure, Except.pure]
    · simp [hsd, index, h3, bind, Except.bind, pure, Except.pure]
  cases enc with
  | false =>
    simp only [msglineData, Bool.false_eq_true, if_false, Option.some.injEq] at hd
    subst hd
    rw [← key msg hs]
    simp [DecodeMsgline, bind, Except.bind, pure, Except.pure]
  | true =>
    cases h1 : b64decode stdAlphabet msg with
    | some d =>
      simp only [msglineData, h1, if_true, Option.some.injEq] at hd
      subst hd
      rw [← key d hs]
      simp [DecodeMsgline, h1, bind, Except.bind, pure, Except.pure]
    | none =>
      simp only [msglineData, h1, if_true] at hd
      rw [← key data hs]
      simp [DecodeMsgline, h1, hd, bind, Except.bind, pure, Except.pure]

/-- A list of at least 5 elements has a fifth element. -/
theorem exists_five {α : Type} (l : List α) (h : 5 ≤ l.length) :
    ∃ t0 t1 t2 t3 t4 rest, l = t0 :: t1 :: t2 :: t3 :: t4 :: rest := by
  match l, h with
  | t0 :: t1 :: t2 :: t3 :: t4 :: rest, _ => exact ⟨t0, t1, t2, t3, t4, rest, rfl⟩

/-- C11: acceptance condition of `DecodeMsgline` on raw input.  It returns an
error exactly when the input splits on newline into fewer than 5 lines, or
line index 3 is not empty, or line 0 does not satisfy `IsEcho`; otherwise it
returns a message, and a returned message has Echo = line 0, To = line 1 and
Subj = line 2. -/
theorem C11_DecodeMsgline_acceptance (now : Int) (s : Str) :
    ((∃ e, DecodeMsgline now s false = .error (.error e)) ↔
      ((Split s NL).length < 5 ∨ (Split s NL).getD 3 [] ≠ [] ∨
        IsEcho ((Split s NL).getD 0 []) = false)) ∧
    ((∃ m, DecodeMsgline now s false = .ok m) ↔
      ¬ ((Split s NL).length < 5 ∨ (Split s NL).getD 3 [] ≠ [] ∨
        IsEcho ((Split s NL).getD 0 []) = false)) ∧
    (∀ m, DecodeMsgline now s false = .ok m →
      (Split s NL)[0]? = some m.Echo ∧ (Split s NL)[1]? = some m.To ∧
        (Split s NL)[2]? = some m.Subj) := by
  by_cases hl : (Split s NL).length < 5
  · have hD := DecodeMsgline_short now s false s rfl hl
    refine ⟨?_, ?_, ?_⟩
    · simp only [hl, true_or, iff_true]
      exact ⟨_, hD⟩
    · simp [hl, hD, failNew]
    · intro m hm
      rw [hD] at hm
      simp [failNew] at hm
  · obtain ⟨t0, t1, t2, t3, t4, rest, hs⟩ := exists_five (Split s NL) (by omega)
    have hD := DecodeMsgline_cons now s false s t0 t1 t2 t3 t4 rest rfl hs
    by_cases h3 : t3 = []
    · by_cases he : IsEcho t0 = true
      · simp only [h3, ne_eq, not_true_eq_false, if_false, he, if_true] at hD
        refine ⟨?_, ?_, ?_⟩
        · simp [hD, hs, h3, he]
        · simp [hD, hs, h3, he]
        · intro m hm
          rw [hD] at hm
          simp only [Except.ok.injEq] at hm
          subst hm
          simp [hs]
      · simp only [h3, ne_eq, not_true_eq_false, if_false, he] at hD
        simp only [Bool.not_eq_true] at he
        refine ⟨?_, ?_, ?_⟩
        · simp [hD, hs, h3, he, failNew]
        · simp [hD, hs, h3, he, failNew]
        · intro m hm
          rw [hD] at hm
          simp [failNew] at hm
    · simp only [h3, ne_eq, not_false_eq_true, if_true] at hD
      refine ⟨?_, ?_, ?_⟩
      · simp [hD, hs, h3, failNew]
      · simp [hD, hs, h3, failNew]
      · intro m hm
        rw [hD] at hm
        simp [failNew] at hm

theorem C11_DecodeMsgline_acceptance_witness :
    ∃ m, DecodeMsgline 1700000000 reptoMsgline false = .ok m ∧
      (Split reptoMsgline NL)[0]? = some m.Echo ∧ (Split reptoMsgline NL)[1]? = some m.To ∧
        (Split reptoMsgline NL)[2]? = some m.Subj :=
  ⟨_, rfl, (C11_DecodeMsgline_acceptance 1700000000 reptoMsgline).2.2 _ rfl⟩

/-! ## The body as joined lines -/

theorem foldl_lines (l : List Str) (init : Str) (hne : l ≠ []) :
    l.foldl (fun acc x => acc ++ (x ++ [NL])) init = init ++ Join l [NL] ++ [NL] := by
  induction l generalizing init with
  | nil => exact absurd rfl hne
  | cons a rest ih =>
    cases rest with
    | nil => simp [Join]
    | cons b rest2 =>
      rw [List.foldl_cons, ih _ (by simp)]
      simp [Join]

/-- The body that the decoders build from the lines `start..` is these lines
joined with single newlines. -/
theorem body_eq_Join (text : List Str) (start : Nat) :
    TrimSuffix (bodyLines text start) [NL] = Join (text.drop start) [NL] := by
  unfold bodyLines
  by_cases h : text.drop start = []
  · rw [h]
    rfl
  · rw [foldl_lines _ _ h, List.nil_append, TrimSuffix_append]

theorem Join_getLast (l : List Str) (sep : Str) (x : Str) (hl : l.getLast? = some x)
    (hx : x ≠ []) : (Join l sep).getLast? = x.getLast? := by
  obtain ⟨ys, rfl⟩ := List.getLast?_eq_some_iff.mp hl
  by_cases hy : ys = []
  · subst hy
    simp [Join]
  · rw [Join_append_single ys x sep hy, List.getLast?_append]
    obtain ⟨c, hc⟩ : ∃ c, x.getLast? = some c := by
      cases h : x.getLast? with
      | none => exact absurd (List.getLast?_eq_none_iff.mp h) hx
      | some c => exact ⟨c, rfl⟩
    simp [hc]

/-- A body does not end in a newline when the last line of the text is not
empty. -/
theorem body_getLast (data : Str) (start : Nat) (x : Str)
    (hl : (Split data NL).getLast? = some x) (hx : x ≠ []) :
    (Join ((Split data NL).drop start) [NL]).getLast? ≠ some NL := by
  by_cases h : (Split data NL).length ≤ start
  · rw [List.drop_eq_nil_of_le h]
    simp [Join]
  · have hlast : ((Split data NL).drop start).getLast? = some x := by
      rw [List.getLast?_drop, if_neg h, hl]
    rw [Join_getLast _ _ x hlast hx]
    intro hc
    have hmem : NL ∈ x := List.mem_of_getLast?_eq_some hc
    have hin : x ∈ Split data NL := List.mem_of_getLast?_eq_some hl
    exact Split_mem_no_sep data NL x hin hmem

theorem mem_Trim (s : Str) (c x : Byte) (h : x ∈ Trim s c) : x ∈ s := by
  unfold Trim at h
  rw [List.mem_reverse] at h
  have h1 := (List.dropWhile_sublist (· == c)).subset h
  rw [List.mem_reverse] at h1
  exact (List.dropWhile_sublist (· == c)).subset h1

/-- The tags of a decoded msgline whose reply-to text has no colon and no
slash. -/
theorem msglineTags_repto (r : Str) (hc : COLON ∉ r) (hsl : SLASH ∉ r) :
    msglineTags (str "@repto:" ++ r) =
      ⟨some ((StrMap.set (StrMap.set StrMap.empty (str "ii") (str "ok")) (str "repto")
          (Trim r SP))), [str "ii", str "repto"]⟩ := by
  have hp : HasPrefix (str "@repto:" ++ r) (str "@repto:") = true := by
    simp [HasPrefix, List.isPrefixOf_iff_prefix]
  have e : str "@repto:" ++ r = str "@repto" ++ COLON :: r := rfl
  have hv : reptoValue (str "@repto:" ++ r) = Trim r SP := by
    unfold reptoValue
    rw [e, Split_append_sep _ _ _ (by decide), Split_no_sep r COLON hc]
    rfl
  have hts : SLASH ∉ Trim r SP := fun h => hsl (mem_Trim r SP SLASH h)
  have e2 : str "repto/" ++ Trim r SP = str "repto" ++ SLASH :: Trim r SP := rfl
  have hsp : Split (str "repto/" ++ Trim r SP) SLASH = [str "repto", Trim r SP] := by
    rw [e2, Split_append_sep _ _ _ (by decide), Split_no_sep _ SLASH hts]
  simp [msglineTags, hp, hv, hsp, pairsMap, evens]

theorem repto_String (v : Str) :
    Tags.String ⟨some ((StrMap.set (StrMap.set StrMap.empty (str "ii") (str "ok")) (str "repto")
      v)), [str "ii", str "repto"]⟩ = str "ii/ok/repto/" ++ v := by
  have hne : str "ii" ≠ str "repto" := by decide
  have e : str "ii" ++ [SLASH] ++ str "ok" ++ [SLASH] ++ (str "repto" ++ [SLASH] ++ v ++ [SLASH]) =
      (str "ii/ok/repto/" ++ v) ++ [SLASH] := by
    have : str "ii/ok/repto/" =
        str "ii" ++ [SLASH] ++ str "ok" ++ [SLASH] ++ (str "repto" ++ [SLASH]) := by decide
    rw [this]
    simp
  simp only [Tags.String, List.foldl_cons, List.foldl_nil, StrMap.set, hne, if_false, if_true,
    List.nil_append]
  rw [e, TrimSuffix_append]

/-- C12 as stated fails: with line 4 `@repto:a:b` the repto value is `a`, the
text up to the second colon; with line 4 `@repto:a/b` the `Add` call returns
its error, which is ignored, and the tags stay `ii/ok`. -/
theorem C12_repto_colon_slash_counterexample :
    (msgOf (DecodeMsgline 1 (str "test.echo\nbob\nSubject\n\n@repto:a:b\nHello") false)).map
        (fun m => (m.Tags.Hash.bind (fun h => h (str "repto")), m.Tags.String)) =
      some (some (str "a"), str "ii/ok/repto/a") ∧
    (msgOf (DecodeMsgline 1 (str "test.echo\nbob\nSubject\n\n@repto:a/b\nHello") false)).map
        (fun m => (m.Tags.Hash.bind (fun h => h (str "repto")), m.Tags.String)) =
      some (none, str "ii/ok") := by
  decide

/-- C12, amended: for every raw msgline that `DecodeMsgline` accepts, if line
4 is `@repto:` followed by a text `r` that contains neither a colon nor a
slash, the returned tag set has the keys `ii`, `repto` in this order with
`ii -> ok` and `repto -> r` trimmed of surrounding spaces and no other key, it
serialises as `ii/ok/repto/<trimmed r>`, and the body is the lines 5.. joined
with newline; if line 4 does not start with `@repto:` the tags are exactly
`ii -> ok` and the body is the lines 4.. joined with newline. -/
theorem C12_DecodeMsgline_repto (now : Int) (s : Str) (m : Msg) (t0 t1 t2 t3 t4 : Str)
    (rest : List Str) (h : DecodeMsgline now s false = .ok m)
    (hs : Split s NL = t0 :: t1 :: t2 :: t3 :: t4 :: rest) :
    (∀ r, t4 = str "@repto:" ++ r → COLON ∉ r → SLASH ∉ r →
      m.Tags.List = [str "ii", str "repto"] ∧
      (∃ hash, m.Tags.Hash = some hash ∧ hash (str "ii") = some (str "ok") ∧
        hash (str "repto") = some (Trim r SP) ∧
        ∀ k, k ≠ str "ii" → k ≠ str "repto" → hash k = none) ∧
      m.Tags.String = str "ii/ok/repto/" ++ Trim r SP ∧
      m.Text = Join rest [NL]) ∧
    (HasPrefix t4 (str "@repto:") = false →
      m.Tags.List = [str "ii"] ∧
      (∃ hash, m.Tags.Hash = some hash ∧ hash (str "ii") = some (str "ok") ∧
        ∀ k, k ≠ str "ii" → hash k = none) ∧
      m.Tags.String = str "ii/ok" ∧
      m.Text = Join (t4 :: rest) [NL]) := by
  have hD := DecodeMsgline_cons now s false s t0 t1 t2 t3 t4 rest rfl hs
  rw [h] at hD
  by_cases h3 : t3 = []
  · by_cases he : IsEcho t0 = true
    · simp only [h3, ne_eq, not_true_eq_false, if_false, he, if_true, Except.ok.injEq] at hD
      subst hD
      simp only [body_eq_Join, hs]
      constructor
      · intro r hr hc hsl
        subst hr
        have hp : HasPrefix (str "@repto:" ++ r) (str "@repto:") = true := by
          simp [HasPrefix, List.isPrefixOf_iff_prefix]
        have hne : str "ii" ≠ str "repto" := by decide
        simp only [msglineStart, hp, if_true, msglineTags_repto r hc hsl, repto_String]
        refine ⟨trivial, ⟨_, rfl, ?_, ?_, ?_⟩, trivial, rfl⟩
        · simp [StrMap.set, hne]
        · simp [StrMap.set]
        · intro k hk1 hk2
          simp [StrMap.set, StrMap.empty, hk1, hk2]
      · intro hp
        simp only [msglineStart, msglineTags, hp, Bool.false_eq_true, if_false]
        refine ⟨rfl, ⟨_, rfl, ?_, ?_⟩, by decide, rfl⟩
        · simp [pairsMap, StrMap.set]
        · intro k hk
          simp [pairsMap, StrMap.set, StrMap.empty, hk]
    · simp [h3, he, failNew] at hD
  · simp [h3, failNew] at hD

theorem C12_DecodeMsgline_repto_witness :
    ∃ m, DecodeMsgline 1700000000 reptoMsgline false = .ok m ∧
      m.Echo = str "test.echo" ∧ m.To = str "bob" ∧ m.Subj = str "Subject" ∧
      m.Tags.List = [str "ii", str "repto"] ∧
      (∃ hash, m.Tags.Hash = some hash ∧ hash (str "ii") = some (str "ok") ∧
        hash (str "repto") = some (Trim (str "AbCdEfGhIjKlMnOpQrSt") SP) ∧
        ∀ k, k ≠ str "ii" → k ≠ str "repto" → hash k = none) ∧
      m.Tags.String = str "ii/ok/repto/" ++ Trim (str "AbCdEfGhIjKlMnOpQrSt") SP ∧
      m.Text = Join [str "Hello there"] [NL] :=
  ⟨_, rfl, rfl, rfl, rfl,
    (C12_DecodeMsgline_repto 1700000000 reptoMsgline _ (str "test.echo") (str "bob")
      (str "Subject") [] (str "@repto:AbCdEfGhIjKlMnOpQrSt") [str "Hello there"] rfl
      (by decide)).1 (str "AbCdEfGhIjKlMnOpQrSt") rfl (by decide) (by decide)⟩

/-- Inversion of `DecodeMsgline`: the lines of an accepted input and the
message returned. -/
theorem DecodeMsgline_ok (now : Int) (msg : Str) (enc : Bool) (m : Msg)
    (h : DecodeMsgline now msg enc = .ok m) :
    ∃ data t0 t1 t2 t4 rest, msglineData msg enc = some data ∧
      Split data NL = t0 :: t1 :: t2 :: [] :: t4 :: rest ∧ IsEcho t0 = true ∧
      m = { MsgId := [], Tags := msglineTags t4, Echo := t0, Date := now, From := [],
            Addr := [], To := t1, Subj := t2,
            Text := Join ((Split data NL).drop (msglineStart t4)) [NL] } := by
  cases hd : msglineData msg enc with
  | none =>
    rw [DecodeMsgline_none now msg enc hd] at h
    simp at h
  | some data =>
    by_cases hl : (Split data NL).length < 5
    · rw [DecodeMsgline_short now msg enc data hd hl] at h
      simp [failNew] at h
    · obtain ⟨t0, t1, t2, t3, t4, rest, hs⟩ := exists_five (Split data NL) (by omega)
      rw [DecodeMsgline_cons now msg enc data t0 t1 t2 t3 t4 rest hd hs] at h
      by_cases h3 : t3 = []
      · by_cases he : IsEcho t0 = true
        · simp only [h3, ne_eq, not_true_eq_false, if_false, he, if_true, Except.ok.injEq] at h
          subst h3
          refine ⟨data, t0, t1, t2, t4, rest, rfl, hs, he, ?_⟩
          rw [← h, body_eq_Join]
        · simp [h3, he, failNew] at h
      · simp [h3, failNew] at h

/-- C16 as stated fails: a body whose last line is empty keeps a trailing
newline, in `DecodeBundle` as in `DecodeMsgline`. -/
theorem C16_trailing_newline_counterexample :
    (msgOf (DecodeBundle zeroSum256 (b64encode stdAlphabet
        (str "ii/ok\ntest.echo\n1700000000\nalice\nnet/1\nbob\nHi\n\nBody\ntext\n")))).map Msg.Text =
      some (str "Body\ntext\n") ∧
    (str "Body\ntext\n").getLast? = some NL ∧
    (msgOf (DecodeMsgline 1700000000 plainMsgline false)).map Msg.Text =
      some (str "Hello\nthere\n") ∧
    (str "Hello\nthere\n").getLast? = some NL := by
  decide

/-- C16, amended: the body of a decoded message is the body lines (lines 8..
of the payload for `DecodeBundle`, lines 4.. or 5.. for `DecodeMsgline`)
joined with single newlines, the newline appended after the last line being
removed; it does not end in a newline when the last line of the input is not
empty. -/
theorem C16_body_joined (Sum256 : Str → Digest) (now : Int) (msg : Str) (m : Msg) :
    (DecodeBundle Sum256 msg = .ok m →
      ∃ b data, (msg = b ∨ ∃ id, msg = id ++ COLON :: b) ∧
        b64decode stdAlphabet b = some data ∧
        m.Text = Join ((Split data NL).drop 8) [NL] ∧
        (∀ x, (Split data NL).getLast? = some x → x ≠ [] → m.Text.getLast? ≠ some NL)) ∧
    (∀ enc, DecodeMsgline now msg enc = .ok m →
      ∃ data t4, msglineData msg enc = some data ∧ (Split data NL)[4]? = some t4 ∧
        m.Text = Join ((Split data NL).drop (msglineStart t4)) [NL] ∧
        (∀ x, (Split data NL).getLast? = some x → x ≠ [] → m.Text.getLast? ≠ some NL)) := by
  constructor
  · intro h
    obtain ⟨b0, m0, hs, hp⟩ := DecodeBundle_ok Sum256 msg m h
    obtain ⟨data, id0, hd, -, hf⟩ := payload_ok Sum256 b0 m0 m hp
    obtain ⟨t0, t1, t2, t3, t4, t5, t6, t7, t8, rest, tags, hsp, -, -, -, hm⟩ :=
      fields_ok data _ m hf
    have hT : m.Text = Join ((Split data NL).drop 8) [NL] := by
      rw [hm, body_eq_Join]
    refine ⟨b0, data, ?_, hd, hT, ?_⟩
    · rcases splitId_ok msg b0 m0 hs with ⟨-, rfl, -⟩ | ⟨p, hmsg, -, -, -, -⟩
      · exact Or.inl rfl
      · exact Or.inr ⟨p, hmsg⟩
    · intro x hx hne
      rw [hT]
      exact body_getLast data 8 x hx hne
  · intro enc h
    obtain ⟨data, t0, t1, t2, t4, rest, hd, hs, -, hm⟩ := DecodeMsgline_ok now msg enc m h
    have hT : m.Text = Join ((Split data NL).drop (msglineStart t4)) [NL] := by
      rw [hm]
    refine ⟨data, t4, hd, by simp [hs], hT, ?_⟩
    intro x hx hne
    rw [hT]
    exact body_getLast data _ x hx hne

theorem C16_body_joined_witness :
    (∃ m, DecodeBundle zeroSum256 (b64encode stdAlphabet noDelimiterPayload) = .ok m ∧
      ∃ b data, (b64encode stdAlphabet noDelimiterPayload = b ∨
          ∃ id, b64encode stdAlphabet noDelimiterPayload = id ++ COLON :: b) ∧
        b64decode stdAlphabet b = some data ∧
        m.Text = Join ((Split data NL).drop 8) [NL] ∧
        (∀ x, (Split data NL).getLast? = some x → x ≠ [] → m.Text.getLast? ≠ some NL)) ∧
    (∃ m, DecodeMsgline 1700000000 reptoMsgline false = .ok m ∧
      ∃ data t4, msglineData reptoMsgline false = some data ∧ (Split data NL)[4]? = some t4 ∧
        m.Text = Join ((Split data NL).drop (msglineStart t4)) [NL] ∧
        (∀ x, (Split data NL).getLast? = some x → x ≠ [] → m.Text.getLast? ≠ some NL)) :=
  ⟨⟨_, rfl, (C16_body_joined zeroSum256 0 _ _).1 rfl⟩,
   ⟨_, rfl, (C16_body_joined zeroSum256 1700000000 reptoMsgline _).2 false rfl⟩⟩

/-- C18: `IsEcho(e)` holds exactly when the length of `e` is between 3 and 120
inclusive and `e` contains a `.`; it accepts `a.b` and rejects the empty
string, `ab` and every 121-byte string that contains a dot. -/
theorem C18_IsEcho_spec :
    (∀ e : Str, IsEcho e = true ↔ (3 ≤ e.length ∧ e.length ≤ 120 ∧ DOT ∈ e)) ∧
    IsEcho (str "a.b") = true ∧ IsEcho [] = false ∧ IsEcho (str "ab") = false ∧
    (∀ e : Str, e.length = 121 → DOT ∈ e → IsEcho e = false) := by
  have key : ∀ e : Str, IsEcho e = true ↔ (3 ≤ e.length ∧ e.length ≤ 120 ∧ DOT ∈ e) := by
    intro e
    simp [IsEcho, Contains, and_assoc]
  refine ⟨key, by decide, by decide, by decide, ?_⟩
  intro e hl _
  cases h : IsEcho e with
  | false => rfl
  | true =>
    have := (key e).mp h
    omega

theorem C18_IsEcho_spec_witness :
    IsEcho (List.replicate 60 DOT ++ List.replicate 61 UA) = false :=
  C18_IsEcho_spec.2.2.2.2 _ (by decide) (by decide)

theorem mem_set_of_ne {α : Type} (l : List α) (i : Nat) (a : α) (h : i < l.length) :
    a ∈ l.set i a := by
  rw [List.mem_iff_getElem]
  exact ⟨i, by simpa using h, by simp⟩

/-- C19: `IsMsgId(id)` holds exactly when `id` is 20 bytes long and contains
no `.`; it accepts every 20-byte alphanumeric string, rejects that string with
one byte replaced by `.` or with a `.` inserted anywhere, and rejects every
string whose length is not 20. -/
theorem C19_IsMsgId_spec :
    (∀ id : Str, IsMsgId id = true ↔ (id.length = 20 ∧ DOT ∉ id)) ∧
    (∀ id : Str, id.length = 20 → (∀ c ∈ id, isAlnum c = true) →
      IsMsgId id = true ∧
      (∀ i, i < 20 → IsMsgId (id.set i DOT) = false) ∧
      (∀ i, IsMsgId (id.take i ++ DOT :: id.drop i) = false)) ∧
    (∀ id : Str, id.length ≠ 20 → IsMsgId id = false) := by
  have key : ∀ id : Str, IsMsgId id = true ↔ (id.length = 20 ∧ DOT ∉ id) := by
    intro id
    simp [IsMsgId, Contains]
  have neg : ∀ id : Str, (id.length ≠ 20 ∨ DOT ∈ id) → IsMsgId id = false := by
    intro id h
    cases hi : IsMsgId id with
    | false => rfl
    | true =>
      have := (key id).mp hi
      rcases h with h | h
      · exact absurd this.1 h
      · exact absurd h this.2
  refine ⟨key, ?_, fun id h => neg id (Or.inl h)⟩
  intro id hl hal
  refine ⟨(key id).mpr ⟨hl, ?_⟩, ?_, ?_⟩
  · intro hd
    have := hal DOT hd
    revert this
    decide
  · intro i hi
    exact neg _ (Or.inr (mem_set_of_ne id i DOT (by omega)))
  · intro i
    exact neg _ (Or.inr (by simp))

theorem C19_IsMsgId_spec_witness :
    IsMsgId (str "AbCdEfGhIjKlMnOpQrSt") = true ∧
    IsMsgId ((str "AbCdEfGhIjKlMnOpQrSt").set 7 DOT) = false ∧
    IsMsgId ((str "AbCdEfGhIjKlMnOpQrSt").take 7 ++ DOT :: (str "AbCdEfGhIjKlMnOpQrSt").drop 7)
      = false ∧
    IsMsgId (str "AbCdEfGhIjKlMnOpQrS") = false :=
  ⟨(C19_IsMsgId_spec.2.1 _ (by decide) (by decide)).1,
   (C19_IsMsgId_spec.2.1 _ (by decide) (by decide)).2.1 7 (by decide),
   (C19_IsMsgId_spec.2.1 (str "AbCdEfGhIjKlMnOpQrSt") (by decide) (by decide)).2.2 7,
   C19_IsMsgId_spec.2.2 _ (by decide)⟩

/-! ## Tokens by index -/

theorem evens_getElem (toks : List Str) (i : Nat) : (evens toks)[i]? = toks[2 * i]? := by
  induction toks using evens.induct generalizing i with
  | case1 => simp [evens]
  | case2 k =>
    cases i with
    | zero => simp [evens]
    | succ i => simp [evens, Nat.mul_succ]
  | case3 k v rest ih =>
    cases i with
    | zero => simp [evens]
    | succ i =>
      simp only [evens, List.getElem?_cons_succ, ih i]
      rw [show 2 * (i + 1) = 2 * i + 1 + 1 by omega]
      simp

theorem evens_length (toks : List Str) (h : toks.length % 2 = 0) :
    (evens toks).length = toks.length / 2 := by
  induction toks using evens.induct with
  | case1 => simp [evens]
  | case2 k => simp at h
  | case3 k v rest ih =>
    simp only [List.length_cons] at h
    simp only [evens, List.length_cons, ih (by omega)]
    omega

theorem shift_even (a b : Str) (rest : List Str) (i : Nat) :
    (a :: b :: rest)[2 * (i + 1)]? = rest[2 * i]? := by
  rw [show 2 * (i + 1) = 2 * i + 1 + 1 by omega]
  simp

theorem shift_odd (a b : Str) (rest : List Str) (i : Nat) :
    (a :: b :: rest)[2 * (i + 1) + 1]? = rest[2 * i + 1]? := by
  rw [show 2 * (i + 1) + 1 = (2 * i + 1) + 1 + 1 by omega]
  simp

/-- The map built from token pairs sends a key to the value of its last
pair, or to its earlier value when no pair has this key. -/
theorem pairsMap_index (toks : List Str) (g : StrMap) (k v : Str) (hl : toks.length % 2 = 0) :
    pairsMap g toks k = some v ↔
      ((∃ i, toks[2 * i]? = some k ∧ toks[2 * i + 1]? = some v ∧
          ∀ j, i < j → toks[2 * j]? ≠ some k) ∨
        (g k = some v ∧ ∀ j, toks[2 * j]? ≠ some k)) := by
  induction toks using evens.induct generalizing g with
  | case1 => simp [pairsMap]
  | case2 a => simp at hl
  | case3 a b rest ih =>
    have h2 : rest.length % 2 = 0 := by
      simp only [List.length_cons] at hl
      omega
    simp only [pairsMap]
    rw [ih (g.set a b) h2]
    constructor
    · rintro (⟨i, h1, h2, h3⟩ | ⟨h1, h2⟩)
      · left
        refine ⟨i + 1, by rw [shift_even]; exact h1, by rw [shift_odd]; exact h2, ?_⟩
        intro j hj
        obtain ⟨j2, rfl⟩ : ∃ j2, j = j2 + 1 := ⟨j - 1, by omega⟩
        rw [shift_even]
        exact h3 j2 (by omega)
      · by_cases hk : k = a
        · left
          subst hk
          simp only [StrMap.set, if_true, Option.some.injEq] at h1
          subst h1
          refine ⟨0, by simp, by simp, ?_⟩
          intro j hj
          obtain ⟨j2, rfl⟩ : ∃ j2, j = j2 + 1 := ⟨j - 1, by omega⟩
          rw [shift_even]
          exact h2 j2
        · right
          simp only [StrMap.set, hk, if_false] at h1
          refine ⟨h1, ?_⟩
          intro j
          cases j with
          | zero =>
            simp only [Nat.mul_zero, List.getElem?_cons_zero, ne_eq, Option.some.injEq]
            exact fun e => hk e.symm
          | succ j2 =>
            rw [shift_even]
            exact h2 j2
    · rintro (⟨i, h1, h2, h3⟩ | ⟨h1, h2⟩)
      · cases i with
        | zero =>
          right
          simp only [Nat.mul_zero, List.getElem?_cons_zero, Option.some.injEq, Nat.zero_add,
            List.getElem?_cons_succ] at h1 h2
          subst h1 h2
          refine ⟨by simp [StrMap.set], ?_⟩
          intro j
          have := h3 (j + 1) (by omega)
          rw [shift_even] at this
          exact this
        | succ i2 =>
          left
          rw [shift_even] at h1
          rw [shift_odd] at h2
          refine ⟨i2, h1, h2, ?_⟩
          intro j hj
          have := h3 (j + 1) (by omega)
          rw [shift_even] at this
          exact this
      · right
        have ha : k ≠ a := by
          intro e
          have := h2 0
          simp [e] at this
        refine ⟨by simp [StrMap.set, ha, h1], ?_⟩
        intro j
        have := h2 (j + 1)
        rw [shift_even] at this
        exact this

/-- C13 as stated fails: the error text holds the trimmed string, not the
input. -/
theorem C13_error_text_counterexample :
    (MakeTags (str " a ")).map Prod.snd = some (some (.errorsNew (str "Wrong tags: a"))) ∧
    (MakeTags (str " a ")).map Prod.snd ≠
      some (some (.errorsNew (str "Wrong tags: " ++ str " a "))) := by
  decide

/-- C13, amended: for every string whose trimmed form is not empty, `MakeTags`
returns an error exactly when the trimmed form splits on `/` into an odd
number of tokens, and the error is "Wrong tags: " followed by the trimmed
form; when it succeeds the key sequence is the even-indexed tokens in order
and the map sends each key to the odd-indexed token of the last pair that has
this key. -/
theorem C13_MakeTags_parity (s : Str) (hne : Trim s SP ≠ []) :
    ((∃ t e, MakeTags s = some (t, some e)) ↔ (Split (Trim s SP) SLASH).length % 2 = 1) ∧
    ((Split (Trim s SP) SLASH).length % 2 = 1 →
      MakeTags s = some (Tags.zero, some (.errorsNew (str "Wrong tags: " ++ Trim s SP)))) ∧
    ((Split (Trim s SP) SLASH).length % 2 = 0 →
      ∃ hash keys, MakeTags s = some (⟨some hash, keys⟩, none) ∧
        keys.length = (Split (Trim s SP) SLASH).length / 2 ∧
        (∀ i, keys[i]? = (Split (Trim s SP) SLASH)[2 * i]?) ∧
        (∀ k v, hash k = some v ↔
          ∃ i, (Split (Trim s SP) SLASH)[2 * i]? = some k ∧
            (Split (Trim s SP) SLASH)[2 * i + 1]? = some v ∧
            ∀ j, i < j → (Split (Trim s SP) SLASH)[2 * j]? ≠ some k)) := by
  have hM := MakeTags_eq s
  simp only [hne, if_false] at hM
  by_cases hp : (Split (Trim s SP) SLASH).length % 2 = 0
  · simp only [hp, ne_eq, not_true_eq_false, if_false] at hM
    refine ⟨?_, ?_, ?_⟩
    · simp [hM, hp]
    · intro h
      omega
    · intro _
      refine ⟨_, _, hM, evens_length _ hp, evens_getElem _, ?_⟩
      intro k v
      rw [pairsMap_index _ _ k v hp]
      simp [StrMap.empty]
  · have hp1 : (Split (Trim s SP) SLASH).length % 2 = 1 := by omega
    simp only [hp, ne_eq, not_false_eq_true, if_true] at hM
    refine ⟨?_, ?_, ?_⟩
    · simp [hM, hp1]
    · intro _
      exact hM
    · intro h
      omega

theorem C13_MakeTags_parity_witness :
    MakeTags (str " a/b/c ") =
        some (Tags.zero, some (.errorsNew (str "Wrong tags: " ++ Trim (str " a/b/c ") SP))) ∧
    ∃ hash keys, MakeTags (str " a/b/a/c ") = some (⟨some hash, keys⟩, none) ∧
        keys.length = (Split (Trim (str " a/b/a/c ") SP) SLASH).length / 2 ∧
        (∀ i, keys[i]? = (Split (Trim (str " a/b/a/c ") SP) SLASH)[2 * i]?) ∧
        (∀ k v, hash k = some v ↔
          ∃ i, (Split (Trim (str " a/b/a/c ") SP) SLASH)[2 * i]? = some k ∧
            (Split (Trim (str " a/b/a/c ") SP) SLASH)[2 * i + 1]? = some v ∧
            ∀ j, i < j → (Split (Trim (str " a/b/a/c ") SP) SLASH)[2 * j]? ≠ some k) :=
  ⟨(C13_MakeTags_parity (str " a/b/c ") (by decide)).2.1 (by decide),
   (C13_MakeTags_parity (str " a/b/a/c ") (by decide)).2.2 (by decide)⟩

theorem Trim_all (s : Str) (c : Byte) (h : ∀ x ∈ s, x = c) : Trim s c = [] := by
  unfold Trim
  have : s.dropWhile (· == c) = [] := by
    rw [List.dropWhile_eq_nil_iff]
    intro x hx
    simp [h x hx]
  rw [this]
  rfl

/-- C14 as stated fails: only spaces are trimmed, so a tab or a newline is a
token and `MakeTags` returns its odd-count error. -/
theorem C14_whitespace_counterexample :
    (MakeTags (str "\t")).map Prod.snd = some (some (.errorsNew (str "Wrong tags: \t"))) ∧
    (MakeTags (str "\n")).map Prod.snd = some (some (.errorsNew (str "Wrong tags: \n"))) ∧
    (MakeTags (str " \t ")).map Prod.snd = some (some (.errorsNew (str "Wrong tags: \t"))) := by
  decide

/-- C14, amended: `MakeTags` trims surrounding space bytes (U+0020 only) before
parsing: every input made only of spaces, the empty string included, is empty
after trimming and yields the empty tag set with no error, and the empty tag
set serialises to the empty string. -/
theorem C14_MakeTags_blank (s : Str) (h : ∀ c ∈ s, c = SP) :
    Trim s SP = [] ∧ MakeTags s = some (Tags.zero, none) ∧ Tags.zero.String = [] := by
  have ht := Trim_all s SP h
  refine ⟨ht, ?_, rfl⟩
  rw [MakeTags_eq]
  simp [ht]

theorem C14_MakeTags_blank_witness :
    (Trim (str "   ") SP = [] ∧ MakeTags (str "   ") = some (Tags.zero, none) ∧
      Tags.zero.String = []) ∧
    (Trim [] SP = [] ∧ MakeTags [] = some (Tags.zero, none) ∧ Tags.zero.String = []) :=
  ⟨C14_MakeTags_blank (str "   ") (by decide), C14_MakeTags_blank [] (by decide)⟩

/-- Appending token pairs keeps the keys of the list and of the map equal. -/
theorem keysAgree_pairs (toks : List Str) (g : StrMap) (L : List Str)
    (hl : toks.length % 2 = 0) (hg : ∀ k, k ∈ L ↔ ∃ v, g k = some v) :
    Tags.keysAgree ⟨some (pairsMap g toks), L ++ evens toks⟩ := by
  intro k
  simp only [Tags.lookup, List.mem_append]
  constructor
  · intro hk
    obtain ⟨v, hv, -⟩ := pairsMap_some (fun _ => True) toks g k hl (fun _ _ => trivial)
      (by
        rcases hk with hk | hk
        · obtain ⟨v, hv⟩ := (hg k).mp hk
          exact Or.inl ⟨v, hv, trivial⟩
        · exact Or.inr hk)
    exact ⟨v, hv⟩
  · rintro ⟨v, hv⟩
    by_cases he : k ∈ evens toks
    · exact Or.inr he
    · left
      rw [pairsMap_not_mem toks g k he] at hv
      exact (hg k).mpr ⟨v, hv⟩

/-- C15: the tag-set invariant (the keys in `List` are the keys of `Hash`)
holds for the tag set that `MakeTags` returns, with or without an error, and
`Add` on a tag set with a non-nil map preserves it for every argument; an
`Add` that returns an error leaves the tag set unchanged. -/
theorem C15_keys_invariant :
    (∀ s, ∃ t e, MakeTags s = some (t, e) ∧ t.keysAgree) ∧
    (∀ (t : Tags) (s : Str), t.Hash ≠ none → t.keysAgree →
      ∃ t1 e, t.Add s = some (t1, e) ∧ t1.keysAgree ∧ (e ≠ none → t1 = t)) := by
  have hz : Tags.zero.keysAgree := by
    intro k
    simp [Tags.zero, Tags.lookup]
  constructor
  · intro s
    rw [MakeTags_eq]
    by_cases h1 : Trim s SP = []
    · exact ⟨_, _, by simp only [h1, if_true]; rfl, hz⟩
    · by_cases h2 : (Split (Trim s SP) SLASH).length % 2 = 0
      · refine ⟨_, _, by simp only [h1, h2, if_false, ne_eq, not_true_eq_false]; rfl, ?_⟩
        have := keysAgree_pairs (Split (Trim s SP) SLASH) StrMap.empty [] h2
          (by simp [StrMap.empty])
        simpa using this
      · exact ⟨_, _, by simp only [h1, h2, if_false, ne_eq, not_false_eq_true, if_true]; rfl, hz⟩
  · intro t s hn hk
    obtain ⟨hash, L⟩ := t
    cases hash with
    | none => exact absurd rfl hn
    | some g =>
      rw [Add_eq]
      by_cases h2 : (Split s SLASH).length % 2 = 0
      · refine ⟨_, none, by simp only [h2, ne_eq, not_true_eq_false, if_false]; rfl, ?_, ?_⟩
        · apply keysAgree_pairs _ _ _ h2
          intro k
          have := hk k
          simpa [Tags.lookup] using this
        · intro h
          exact absurd rfl h
      · exact ⟨_, _, by simp only [h2, ne_eq, not_false_eq_true, if_true]; rfl, hk, fun _ => rfl⟩

theorem C15_keys_invariant_witness :
    ∃ t1 e, iiOkTags.Add (str "repto/x/ii/y") = some (t1, e) ∧ t1.keysAgree ∧
      (e ≠ none → t1 = iiOkTags) :=
  C15_keys_invariant.2 iiOkTags (str "repto/x/ii/y") (by simp [iiOkTags])
    (by
      intro k
      by_cases hk : k = str "ii"
      · simp [iiOkTags, Tags.lookup, pairsMap, StrMap.set, hk]
      · simp [iiOkTags, Tags.lookup, pairsMap, StrMap.set, StrMap.empty, hk])

/-! ## Scanning an integer that is followed by other text -/

theorem skipSpaceAux_mem (fuel : Nat) (s s1 : Str) (h : skipSpaceAux fuel s = some s1) :
    ∀ c ∈ s1, c ∈ s := by
  induction fuel generalizing s with
  | zero =>
    simp only [skipSpaceAux, Option.some.injEq] at h
    subst h
    exact fun c hc => hc
  | succ fuel ih =>
    unfold skipSpaceAux at h
    split at h
    · simp at h
    · split at h
      · simp only [Option.some.injEq] at h
        subst h
        exact fun c hc => hc
      · intro c hc
        exact List.mem_of_mem_drop (ih _ h c hc)

theorem takeWhile_nil_of_none (s : Str) (h : ∀ c ∈ s, isDigit c = false) :
    s.takeWhile isDigit = [] := by
  cases s with
  | nil => rfl
  | cons c r => simp [List.takeWhile_cons, h c (by simp)]

theorem SscanfInt_no_digit (s : Str) (h : ∀ c ∈ s, isDigit c = false) : SscanfInt s = none := by
  unfold SscanfInt
  cases hsk : skipSpace s with
  | none => rfl
  | some s1 =>
    have h1 : ∀ c ∈ s1, isDigit c = false := fun c hc =>
      h c (skipSpaceAux_mem _ s s1 hsk c hc)
    have h2 : ∀ c ∈ (if s1.head? = some MINUS ∨ s1.head? = some PLUS then s1.tail else s1),
        isDigit c = false := by
      intro c hc
      split at hc
      · exact h1 c (List.mem_of_mem_tail hc)
      · exact h1 c hc
    simp only [takeWhile_nil_of_none _ h2, if_true]

theorem takeWhile_digits_tail (ds tail : Str) (hd : ∀ x ∈ ds, isDigit x = true)
    (ht : ∀ c, tail.head? = some c → isDigit c = false) :
    (ds ++ tail).takeWhile isDigit = ds := by
  rw [List.takeWhile_append_of_pos hd]
  cases tail with
  | nil => simp
  | cons c r => simp [List.takeWhile_cons, ht c rfl]

theorem SscanfInt_digits_tail (s tail : Str) (hne : s ≠ []) (hd : ∀ x ∈ s, isDigit x = true)
    (ht : ∀ c, tail.head? = some c → isDigit c = false)
    (hr : inInt64 (digitsValue s)) : SscanfInt (s ++ tail) = some (digitsValue s : Int) := by
  obtain ⟨c, rest, rfl⟩ := List.exists_cons_of_ne_nil hne
  have hc := isDigit_bounds c (hd c (by simp))
  have hNL : c ≠ NL := by intro e; rw [e] at hc; revert hc; decide
  have hM : c ≠ MINUS := by intro e; rw [e] at hc; revert hc; decide
  have hP : c ≠ PLUS := by intro e; rw [e] at hc; revert hc; decide
  have hsk := skipSpace_ascii c (rest ++ tail) hNL (by omega) (by omega)
  have htw := takeWhile_digits_tail (c :: rest) tail hd ht
  simp only [List.cons_append] at htw ⊢
  simp only [SscanfInt, hsk, List.head?_cons, Option.some.injEq, hM, hP, or_self, if_false,
    htw, decide_False, hr, if_true]
  simpa using hr

theorem SscanfInt_neg_digits_tail (s tail : Str) (hne : s ≠ [])
    (hd : ∀ x ∈ s, isDigit x = true) (ht : ∀ c, tail.head? = some c → isDigit c = false)
    (hr : inInt64 (-(digitsValue s : Int))) :
    SscanfInt (MINUS :: s ++ tail) = some (-(digitsValue s : Int)) := by
  have hsk := skipSpace_ascii MINUS (s ++ tail) (by decide) (by decide) (by decide)
  have htw := takeWhile_digits_tail s tail hd ht
  simp only [List.cons_append]
  simp only [SscanfInt, hsk, List.head?_cons, true_or, if_true, List.tail_cons, htw, hne,
    if_false, decide_True, hr]

theorem SscanfInt_Sprint_tail (d : Int) (tail : Str) (h : inInt64 d)
    (ht : ∀ c, tail.head? = some c → isDigit c = false) :
    SscanfInt (Sprint d ++ tail) = some d := by
  obtain ⟨h1, h2, h3⟩ := formatNat_spec d.natAbs
  by_cases hneg : d < 0
  · have e : -((digitsValue (formatNat d.natAbs) : Nat) : Int) = d := by rw [h3]; omega
    simp only [Sprint, hneg, if_true]
    rw [SscanfInt_neg_digits_tail _ tail h1 h2 ht (by rw [e]; exact h), e]
  · have e : ((digitsValue (formatNat d.natAbs) : Nat) : Int) = d := by rw [h3]; omega
    simp only [Sprint, hneg, if_false]
    rw [SscanfInt_digits_tail _ tail h1 h2 ht (by rw [e]; exact h), e]

/-- C17 as stated fails: line 2 need not be the decimal text of an integer;
the scan reads a leading integer and leaves the rest unread, and it skips
leading spaces. -/
theorem C17_trailing_text_counterexample :
    (msgOf (DecodeBundle zeroSum256 (b64encode stdAlphabet
        (str "ii/ok\ntest.echo\n123abc\nalice\nnet/1\nbob\nHi\n\nBody")))).map Msg.Date =
      some 123 ∧
    (msgOf (DecodeBundle zeroSum256 (b64encode stdAlphabet
        (str "ii/ok\ntest.echo\n  +7 days\nalice\nnet/1\nbob\nHi\n\nBody")))).map Msg.Date =
      some 7 := by
  decide

/-! ## Absence of run-time panics -/

theorem MakeTags_ne_none (s : Str) : MakeTags s ≠ none := by
  rw [MakeTags_eq]
  split
  · simp
  · split <;> simp

theorem payload_none (Sum256 : Str → Digest) (b : Str) (m0 : Msg)
    (h : b64decode stdAlphabet b = none) :
    DecodeBundle.payload Sum256 b m0 = .error (.error .corruptInput) := by
  simp [DecodeBundle.payload, h, throw, throwThe, MonadExceptOf.throw]

theorem fields_total (data : Str) (m0 : Msg) :
    (∃ m, DecodeBundle.fields data m0 = .ok m) ∨
      (∃ e, DecodeBundle.fields data m0 = .error (.error e)) := by
  by_cases hl : (Split data NL).length ≤ 8
  · exact Or.inr ⟨_, fields_short data m0 hl⟩
  · obtain ⟨t0, t1, t2, t3, t4, t5, t6, t7, t8, rest, hs⟩ :=
      exists_nine (Split data NL) (by omega)
    rw [fields_cons data m0 t0 t1 t2 t3 t4 t5 t6 t7 t8 rest hs]
    cases hm : MakeTags t0 with
    | none => exact absurd hm (MakeTags_ne_none t0)
    | some r =>
      obtain ⟨tags, e⟩ := r
      cases e with
      | some err => exact Or.inr ⟨err, rfl⟩
      | none =>
        by_cases he : IsEcho t1 = true
        · cases hd : SscanfInt t2 with
          | none => exact Or.inr ⟨_, by simp only [he, if_true]; rfl⟩
          | some date => exact Or.inl ⟨_, by simp only [he, if_true]; rfl⟩
        · exact Or.inr ⟨_, by simp only [he]; rfl⟩

theorem payload_total (Sum256 : Str → Digest) (b : Str) (m0 : Msg) :
    (∃ m, DecodeBundle.payload Sum256 b m0 = .ok m) ∨
      (∃ e, DecodeBundle.payload Sum256 b m0 = .error (.error e)) := by
  cases hd : b64decode stdAlphabet b with
  | none => exact Or.inr ⟨_, payload_none Sum256 b m0 hd⟩
  | some data =>
    obtain ⟨id, -, he⟩ := payload_eq Sum256 b data m0 hd
    rw [he]
    exact fields_total data _

theorem splitId_total (msg : Str) :
    (∃ r, DecodeBundle.splitId msg = .ok r) ∨
      (∃ e, DecodeBundle.splitId msg = .error (.error e)) := by
  by_cases hc : COLON ∈ msg
  · by_cases hl : (Split msg COLON).length = 2
    · obtain ⟨p, q, hpq⟩ : ∃ p q, Split msg COLON = [p, q] := by
        match hS : Split msg COLON, hl with
        | [p, q], _ => exact ⟨p, q, rfl⟩
      obtain ⟨hmsg, hp, hq⟩ := Split_two msg COLON p q hpq
      rw [hmsg, splitId_pair p q hp hq]
      by_cases hi : IsMsgId p = true
      · exact Or.inl ⟨_, by simp only [hi, if_true]; rfl⟩
      · exact Or.inr ⟨_, by simp only [hi]; rfl⟩
    · exact Or.inr ⟨_, splitId_many msg hc hl⟩
  · exact Or.inl ⟨_, splitId_bare msg hc⟩

theorem DecodeBundle_total (Sum256 : Str → Digest) (msg : Str) :
    (∃ m, DecodeBundle Sum256 msg = .ok m) ∨
      (∃ e, DecodeBundle Sum256 msg = .error (.error e)) := by
  rcases splitId_total msg with ⟨⟨b, m0⟩, hs⟩ | ⟨e, hs⟩
  · rw [DecodeBundle_eq Sum256 msg b m0 hs]
    exact payload_total Sum256 b m0
  · exact Or.inr ⟨e, by simp [DecodeBundle, hs, bind, Except.bind]⟩

theorem DecodeMsgline_total (now : Int) (msg : Str) (enc : Bool) :
    (∃ m, DecodeMsgline now msg enc = .ok m) ∨
      (∃ e, DecodeMsgline now msg enc = .error (.error e)) := by
  cases hd : msglineData msg enc with
  | none => exact Or.inr ⟨_, DecodeMsgline_none now msg enc hd⟩
  | some data =>
    by_cases hl : (Split data NL).length < 5
    · exact Or.inr ⟨_, DecodeMsgline_short now msg enc data hd hl⟩
    · obtain ⟨t0, t1, t2, t3, t4, rest, hs⟩ := exists_five (Split data NL) (by omega)
      rw [DecodeMsgline_cons now msg enc data t0 t1 t2 t3 t4 rest hd hs]
      by_cases h3 : t3 = []
      · by_cases he : IsEcho t0 = true
        · exact Or.inl ⟨_, by simp only [h3, ne_eq, not_true_eq_false, if_false, he, if_true]; rfl⟩
        · exact Or.inr ⟨_, by simp only [h3, ne_eq, not_true_eq_false, if_false, he]; rfl⟩
      · exact Or.inr ⟨_, by simp only [h3, ne_eq, not_false_eq_true, if_true]; rfl⟩

/-- C20: the decoders are total.  For every input, `DecodeMsgline` (with
either value of `enc`) and `DecodeBundle` return a message or an error and
never panic: the line indexes they read are in range after the length checks,
the index 1 of the split of an `@repto:` line exists, the slice `id[0:20]` of
`MsgId` is in range, `MakeTags` does not index past its tokens, and the `Add`
call of `DecodeMsgline` finds a non-nil map. -/
theorem C20_decoders_total (Sum256 : Str → Digest) (now : Int) (msg : Str) (enc : Bool) :
    ((∃ m, DecodeMsgline now msg enc = .ok m) ∨
      (∃ e, DecodeMsgline now msg enc = .error (.error e))) ∧
    ((∃ m, DecodeBundle Sum256 msg = .ok m) ∨
      (∃ e, DecodeBundle Sum256 msg = .error (.error e))) ∧
    DecodeMsgline now msg enc ≠ .error .panic ∧
    DecodeBundle Sum256 msg ≠ .error .panic ∧
    (∃ id, MsgId Sum256 msg = some id) ∧
    MakeTags msg ≠ none ∧
    iiOkTags.Add msg ≠ none ∧
    (HasPrefix msg (str "@repto:") = true → ∃ x, index (Split msg COLON) 1 = .ok x) := by
  have h1 := DecodeMsgline_total now msg enc
  have h2 := DecodeBundle_total Sum256 msg
  refine ⟨h1, h2, ?_, ?_, ⟨_, MsgId_eq Sum256 msg⟩, MakeTags_ne_none msg, ?_, ?_⟩
  · rcases h1 with ⟨m, h⟩ | ⟨e, h⟩ <;> rw [h] <;> simp
  · rcases h2 with ⟨m, h⟩ | ⟨e, h⟩ <;> rw [h] <;> simp
  · rw [iiOk_Add]
    split <;> simp
  · intro hp
    obtain ⟨r, -, x, xs, -, hx⟩ := Split_repto msg hp
    exact ⟨x, by simp [index, hx]⟩

theorem C20_decoders_total_witness :
    ∃ x, index (Split (str "@repto:AbCdEfGhIjKlMnOpQrSt") COLON) 1 = .ok x :=
  (C20_decoders_total zeroSum256 0 (str "@repto:AbCdEfGhIjKlMnOpQrSt") true).2.2.2.2.2.2.2
    (by decide)

/-! ## White space and integer tokens -/

theorem spaceRunes_width (r rest : Str) (h : r ∈ spaceRunes) :
    r ≠ [] ∧ r.head? ≠ some NL ∧ spaceWidth (r ++ rest) = r.length := by
  simp only [spaceRunes, List.mem_cons, List.mem_singleton, List.not_mem_nil, or_false] at h
  rcases h with h | h | h | h | h | h | h | h | h | h | h | h | h | h | h | h | h | h | h | h |
    h | h | h | h <;> subst h <;> refine ⟨by decide, by decide, rfl⟩

theorem byte_eq (c : Byte) (n : Nat) (hn : n < 256) (h : c.val = n) : c = ⟨n, hn⟩ :=
  Fin.ext h

theorem map_val_cons (rest : Str) (n : Nat) (tail : List Nat)
    (h : List.map Fin.val rest = n :: tail) :
    ∃ b rest2, rest = b :: rest2 ∧ b.val = n ∧ List.map Fin.val rest2 = tail := by
  cases rest with
  | nil => simp at h
  | cons b rest2 =>
    simp only [List.map_cons, List.cons.injEq] at h
    exact ⟨b, rest2, rfl, h.1, h.2⟩

theorem spaceWidth_aux (s : Str) (w : Nat) (hw : spaceWidth s = w) (h : w ≠ 0) :
    s.take w ∈ spaceRunes ∧ w ≤ s.length := by
  cases s with
  | nil => exact absurd hw.symm h
  | cons c rest =>
    unfold spaceWidth at hw
    by_cases h1 : c.val = 9 ∨ c.val = 11 ∨ c.val = 12 ∨ c.val = 13 ∨ c.val = 32
    · simp only [h1, if_true] at hw
      subst hw
      refine ⟨?_, by simp⟩
      rcases h1 with h1 | h1 | h1 | h1 | h1
      all_goals
        have e0 := byte_eq c _ (by decide) h1
        subst e0
        simp [spaceRunes]
    · simp only [h1, if_false] at hw
      split at hw
      · rename_i hc hm
        obtain ⟨b, rest2, rfl, hb, -⟩ := map_val_cons _ _ _ hm
        have e1 := byte_eq c _ (by decide) hc
        have e2 := byte_eq b _ (by decide) hb
        subst hw e1 e2
        simp [spaceRunes]
      · rename_i hc hm
        obtain ⟨b, rest2, rfl, hb, -⟩ := map_val_cons _ _ _ hm
        have e1 := byte_eq c _ (by decide) hc
        have e2 := byte_eq b _ (by decide) hb
        subst hw e1 e2
        simp [spaceRunes]
      · rename_i hc hm
        obtain ⟨b, rest2, rfl, hb, hm2⟩ := map_val_cons _ _ _ hm
        obtain ⟨b2, rest3, rfl, hb2, -⟩ := map_val_cons _ _ _ hm2
        have e1 := byte_eq c _ (by decide) hc
        have e2 := byte_eq b _ (by decide) hb
        have e3 := byte_eq b2 _ (by decide) hb2
        subst hw e1 e2 e3
        simp [spaceRunes]
      · rename_i bn tl hc hm
        obtain ⟨b, rest2, rfl, hb, hm2⟩ := map_val_cons _ _ _ hm
        obtain ⟨b2, rest3, rfl, hb2, -⟩ := map_val_cons _ _ _ hm2
        have e1 := byte_eq c _ (by decide) hc
        have e2 := byte_eq b _ (by decide) hb
        by_cases hcond : 128 ≤ bn ∧ bn ≤ 138 ∨ bn = 168 ∨ bn = 169 ∨ bn = 175
        · simp only [hcond, if_true] at hw
          subst hw e1 e2
          refine ⟨?_, by simp⟩
          simp only [List.take_succ_cons, List.take_zero]
          rcases hcond with ⟨hlo, hhi⟩ | hv | hv | hv
          · interval_cases bn
            all_goals
              have e3 := byte_eq b2 _ (by decide) hb2
              subst e3
              decide
          · subst hv; have e3 := byte_eq b2 _ (by decide) hb2; subst e3; decide
          · subst hv; have e3 := byte_eq b2 _ (by decide) hb2; subst e3; decide
          · subst hv; have e3 := byte_eq b2 _ (by decide) hb2; subst e3; decide
        · simp only [hcond, if_false] at hw
          exact absurd hw.symm h
      · rename_i hc hm
        obtain ⟨b, rest2, rfl, hb, hm2⟩ := map_val_cons _ _ _ hm
        obtain ⟨b2, rest3, rfl, hb2, -⟩ := map_val_cons _ _ _ hm2
        have e1 := byte_eq c _ (by decide) hc
        have e2 := byte_eq b _ (by decide) hb
        have e3 := byte_eq b2 _ (by decide) hb2
        subst hw e1 e2 e3
        simp [spaceRunes]
      · rename_i hc hm
        obtain ⟨b, rest2, rfl, hb, hm2⟩ := map_val_cons _ _ _ hm
        obtain ⟨b2, rest3, rfl, hb2, -⟩ := map_val_cons _ _ _ hm2
        have e1 := byte_eq c _ (by decide) hc
        have e2 := byte_eq b _ (by decide) hb
        have e3 := byte_eq b2 _ (by decide) hb2
        subst hw e1 e2 e3
        simp [spaceRunes]
      · exact absurd hw.symm h

theorem spaceWidth_pos (s : Str) (h : spaceWidth s ≠ 0) :
    s.take (spaceWidth s) ∈ spaceRunes ∧ spaceWidth s ≤ s.length :=
  spaceWidth_aux s _ rfl h

/-- What `SkipSpace` consumes is a run of space runes. -/
theorem skipSpaceAux_run (fuel : Nat) (s s1 : Str) (h : skipSpaceAux fuel s = some s1) :
    ∃ ws, s = ws ++ s1 ∧ SpaceRun ws := by
  induction fuel generalizing s with
  | zero =>
    simp only [skipSpaceAux, Option.some.injEq] at h
    exact ⟨[], by simp [h], SpaceRun.nil⟩
  | succ fuel ih =>
    unfold skipSpaceAux at h
    split at h
    · simp at h
    · split at h
      · simp only [Option.some.injEq] at h
        exact ⟨[], by simp [h], SpaceRun.nil⟩
      · rename_i hw
        obtain ⟨ws, hws, hrun⟩ := ih _ h
        obtain ⟨hmem, -⟩ := spaceWidth_pos s hw
        refine ⟨s.take (spaceWidth s) ++ ws, ?_, SpaceRun.cons _ _ hmem hrun⟩
        rw [List.append_assoc, ← hws, List.take_append_drop]

/-- `SkipSpace` consumes a run of space runes that is followed by an ASCII
byte which is not a space. -/
theorem skipSpaceAux_of_run (ws : Str) (hrun : SpaceRun ws) (c : Byte) (r : Str)
    (h0 : c ≠ NL) (h1 : c.val < 128)
    (h2 : ¬ (c.val = 9 ∨ c.val = 11 ∨ c.val = 12 ∨ c.val = 13 ∨ c.val = 32)) :
    ∀ fuel, (ws ++ c :: r).length ≤ fuel → skipSpaceAux fuel (ws ++ c :: r) = some (c :: r) := by
  induction hrun with
  | nil =>
    intro fuel hf
    cases fuel with
    | zero => simp at hf
    | succ fuel =>
      simp [skipSpaceAux, h0, spaceWidth_ascii c r h1 h2]
  | cons x ws hx _ ih =>
    intro fuel hf
    obtain ⟨hne, hnl, hwid⟩ := spaceRunes_width x (ws ++ c :: r) hx
    obtain ⟨a, as, rfl⟩ := List.exists_cons_of_ne_nil hne
    cases fuel with
    | zero => simp at hf
    | succ fuel =>
      rw [List.append_assoc]
      unfold skipSpaceAux
      have hhead : ((a :: as) ++ (ws ++ c :: r)).head? ≠ some NL := by
        simp only [List.cons_append, List.head?_cons] at hnl ⊢
        exact hnl
      simp only [hhead, if_false, hwid]
      simp only [List.length_cons, Nat.add_one_ne_zero, if_false]
      have hdrop : ((a :: as) ++ (ws ++ c :: r)).drop (as.length + 1) = ws ++ c :: r := by
        simp
      rw [hdrop]
      apply ih
      simp only [List.length_append, List.length_cons] at hf ⊢
      omega

theorem skipSpace_of_run (ws : Str) (hrun : SpaceRun ws) (c : Byte) (r : Str)
    (h0 : c ≠ NL) (h1 : c.val < 128)
    (h2 : ¬ (c.val = 9 ∨ c.val = 11 ∨ c.val = 12 ∨ c.val = 13 ∨ c.val = 32)) :
    skipSpace (ws ++ c :: r) = skipSpace (c :: r) := by
  rw [skipSpace_ascii c r h0 h1 h2]
  exact skipSpaceAux_of_run ws hrun c r h0 h1 h2 _ (Nat.le_refl _)

theorem SscanfInt_congr (a b : Str) (h : skipSpace a = skipSpace b) :
    SscanfInt a = SscanfInt b := by
  unfold SscanfInt
  rw [h]

theorem SscanfInt_plus_digits_tail (s tail : Str) (hne : s ≠ [])
    (hd : ∀ x ∈ s, isDigit x = true) (ht : ∀ c, tail.head? = some c → isDigit c = false)
    (hr : inInt64 (digitsValue s : Int)) :
    SscanfInt (PLUS :: s ++ tail) = some (digitsValue s : Int) := by
  have hsk := skipSpace_ascii PLUS (s ++ tail) (by decide) (by decide) (by decide)
  have htw := takeWhile_digits_tail s tail hd ht
  have hpm : PLUS ≠ MINUS := by decide
  simp only [List.cons_append]
  simp only [SscanfInt, hsk, List.head?_cons, Option.some.injEq, hpm, or_true, if_true,
    List.tail_cons, htw, hne, if_false, decide_False, hr]
  simpa using hr

/-- A line that begins with an integer token scans to the value of the token. -/
theorem SscanfInt_of_begins (s : Str) (n : Int) (h : BeginsWithInt s n) :
    SscanfInt s = some n := by
  obtain ⟨ws, sign, ds, tail, rfl, hrun, hsign, hne, hd, ht, hn, hr⟩ := h
  obtain ⟨c, rest, hds⟩ := List.exists_cons_of_ne_nil hne
  have hc := isDigit_bounds c (hd c (by rw [hds]; simp))
  rcases hsign with rfl | rfl | rfl
  · have hnil : ([] : Str) ≠ [MINUS] := by simp
    simp only [hnil, if_false] at hn
    simp only [List.nil_append]
    have hNL : c ≠ NL := by intro e; rw [e] at hc; revert hc; decide
    have e : ws ++ (ds ++ tail) = ws ++ c :: (rest ++ tail) := by rw [hds]; rfl
    rw [SscanfInt_congr _ _ (e ▸ skipSpace_of_run ws hrun c (rest ++ tail) hNL (by omega)
      (by omega))]
    have e2 : c :: (rest ++ tail) = ds ++ tail := by rw [hds]; rfl
    rw [e2, hn, SscanfInt_digits_tail ds tail hne hd ht (by rw [← hn]; exact hr)]
  · simp only [if_true] at hn
    have e : ws ++ ([MINUS] ++ (ds ++ tail)) = ws ++ MINUS :: (ds ++ tail) := rfl
    rw [e, SscanfInt_congr _ _ (skipSpace_of_run ws hrun MINUS (ds ++ tail) (by decide)
      (by decide) (by decide))]
    have e2 : MINUS :: (ds ++ tail) = MINUS :: ds ++ tail := rfl
    rw [e2, hn, SscanfInt_neg_digits_tail ds tail hne hd ht (by rw [← hn]; exact hr)]
  · have hpm : ([PLUS] : Str) ≠ [MINUS] := by decide
    simp only [hpm, if_false] at hn
    have e : ws ++ ([PLUS] ++ (ds ++ tail)) = ws ++ PLUS :: (ds ++ tail) := rfl
    rw [e, SscanfInt_congr _ _ (skipSpace_of_run ws hrun PLUS (ds ++ tail) (by decide)
      (by decide) (by decide))]
    have e2 : PLUS :: (ds ++ tail) = PLUS :: ds ++ tail := rfl
    rw [e2, hn, SscanfInt_plus_digits_tail ds tail hne hd ht (by rw [← hn]; exact hr)]

theorem dropWhile_head_not_digit (s2 : Str) :
    ∀ c, (s2.dropWhile isDigit).head? = some c → isDigit c = false := by
  intro c hc
  have := List.head?_dropWhile_not isDigit s2
  rw [hc] at this
  simpa using this

/-- A line that scans to `n` begins with an integer token of value `n`. -/
theorem begins_of_SscanfInt (s : Str) (n : Int) (h : SscanfInt s = some n) :
    BeginsWithInt s n := by
  unfold SscanfInt at h
  cases hsk : skipSpace s with
  | none => simp [hsk] at h
  | some s1 =>
    obtain ⟨ws, hws, hrun⟩ := skipSpaceAux_run _ s s1 hsk
    simp only [hsk] at h
    have key : ∀ (sign s2 : Str) (neg : Bool), s1 = sign ++ s2 →
        (sign = [] ∨ sign = [MINUS] ∨ sign = [PLUS]) → (neg = true ↔ sign = [MINUS]) →
        (if s2.takeWhile isDigit = [] then none
          else if inInt64 (if neg = true then -(digitsValue (s2.takeWhile isDigit) : Int)
              else (digitsValue (s2.takeWhile isDigit) : Int))
            then some (if neg = true then -(digitsValue (s2.takeWhile isDigit) : Int)
              else (digitsValue (s2.takeWhile isDigit) : Int))
            else none) = some n →
        BeginsWithInt s n := by
      intro sign s2 neg hs1 hsign hneg hval
      generalize hv : (if neg = true then -(digitsValue (s2.takeWhile isDigit) : Int)
        else (digitsValue (s2.takeWhile isDigit) : Int)) = v at hval
      by_cases hds : s2.takeWhile isDigit = []
      · simp [hds] at hval
      · simp only [hds, if_false] at hval
        by_cases hr : inInt64 v
        · simp only [hr, if_true, Option.some.injEq] at hval
          subst hval
          refine ⟨ws, sign, s2.takeWhile isDigit, s2.dropWhile isDigit, ?_, hrun, hsign, hds,
            ?_, dropWhile_head_not_digit s2, ?_, hr⟩
          · rw [List.takeWhile_append_dropWhile, ← hs1, ← hws]
          · intro c hc
            exact (List.mem_takeWhile_imp hc)
          · rw [← hv]
            by_cases hn : neg = true
            · simp [hn, hneg.mp hn]
            · have : sign ≠ [MINUS] := fun e => hn (hneg.mpr e)
              simp [hn, this]
        · simp [hr] at hval
    by_cases hm : s1.head? = some MINUS
    · obtain ⟨r, rfl⟩ : ∃ r, s1 = MINUS :: r := by
        cases s1 with
        | nil => simp at hm
        | cons a r => simp only [List.head?_cons, Option.some.injEq] at hm; exact ⟨r, by rw [hm]⟩
      apply key [MINUS] r true rfl (by simp) (by simp)
      simpa using h
    · by_cases hp : s1.head? = some PLUS
      · obtain ⟨r, rfl⟩ : ∃ r, s1 = PLUS :: r := by
          cases s1 with
          | nil => simp at hp
          | cons a r =>
            simp only [List.head?_cons, Option.some.injEq] at hp; exact ⟨r, by rw [hp]⟩
        have hpm : ([PLUS] : Str) ≠ [MINUS] := by decide
        have hpm2 : PLUS ≠ MINUS := by decide
        apply key [PLUS] r false rfl (by simp) (by simp [hpm])
        simpa [hpm2] using h
      · apply key [] s1 false rfl (by simp) (by simp)
        simpa [hm, hp] using h

/-- `fmt.Sscanf(s, "%d", &x)` succeeds with value `n` exactly when `s` begins
with an integer token of value `n`. -/
theorem SscanfInt_iff (s : Str) (n : Int) : SscanfInt s = some n ↔ BeginsWithInt s n :=
  ⟨begins_of_SscanfInt s n, SscanfInt_of_begins s n⟩

theorem SscanfInt_none_iff (s : Str) : SscanfInt s = none ↔ ¬ ∃ n, BeginsWithInt s n := by
  constructor
  · rintro h ⟨n, hn⟩
    rw [SscanfInt_of_begins s n hn] at h
    simp at h
  · intro h
    cases hs : SscanfInt s with
    | none => rfl
    | some n => exact absurd ⟨n, begins_of_SscanfInt s n hs⟩ h

/-- Lines that do not begin with an integer token: digits after other text,
a doubled sign, a sign alone, the empty line, and a value outside `int64`. -/
theorem no_integer_token_examples :
    (¬ ∃ n, BeginsWithInt (str "abc123") n) ∧ (¬ ∃ n, BeginsWithInt (str "x12") n) ∧
    (¬ ∃ n, BeginsWithInt (str "--5") n) ∧ (¬ ∃ n, BeginsWithInt (str "+") n) ∧
    (¬ ∃ n, BeginsWithInt [] n) ∧
    (¬ ∃ n, BeginsWithInt (str "9223372036854775808") n) ∧
    BeginsWithInt (str "-9223372036854775808") (-9223372036854775808) ∧
    BeginsWithInt (str "123abc") 123 ∧ BeginsWithInt (str "  +7 days") 7 ∧
    BeginsWithInt (str "007") 7 :=
  ⟨(SscanfInt_none_iff _).mp (by decide), (SscanfInt_none_iff _).mp (by decide),
   (SscanfInt_none_iff _).mp (by decide), (SscanfInt_none_iff _).mp (by decide),
   (SscanfInt_none_iff _).mp (by decide), (SscanfInt_none_iff _).mp (by decide),
   (SscanfInt_iff _ _).mp (by decide), (SscanfInt_iff _ _).mp (by decide),
   (SscanfInt_iff _ _).mp (by decide), (SscanfInt_iff _ _).mp (by decide)⟩

/-- C17, amended: for every bundle whose decoded payload has more than 8
lines, parseable tags and a valid echo name, `DecodeBundle` returns the scan
error and no message whenever line 2 does not begin with an integer token
(optional white space, an optional sign, then a non-empty longest run of
decimal digits whose value is in the `int64` range); when line 2 begins with
such a token of value `n`, whatever follows it, `DecodeBundle` returns a
message whose Date is `n`; in particular this holds when line 2 is the decimal
text of an `int64` integer `n` as written by `Encode`. -/
theorem C17_timestamp (Sum256 : Str → Digest) (msg b data : Str)
    (t0 t1 t2 t3 t4 t5 t6 t7 t8 : Str) (rest : List Str) (tags : Tags)
    (hform : (msg = b ∧ COLON ∉ b) ∨
      (∃ id, msg = id ++ COLON :: b ∧ COLON ∉ id ∧ COLON ∉ b ∧ IsMsgId id = true))
    (hdec : b64decode stdAlphabet b = some data)
    (hs : Split data NL = t0 :: t1 :: t2 :: t3 :: t4 :: t5 :: t6 :: t7 :: t8 :: rest)
    (htags : MakeTags t0 = some (tags, none)) (hecho : IsEcho t1 = true) :
    ((¬ ∃ n, BeginsWithInt t2 n) → DecodeBundle Sum256 msg = .error (.error .scanError)) ∧
    (∀ n, BeginsWithInt t2 n → ∃ m, DecodeBundle Sum256 msg = .ok m ∧ m.Date = n) ∧
    (∀ n tail, inInt64 n → t2 = Sprint n ++ tail →
      (∀ c, tail.head? = some c → isDigit c = false) →
      BeginsWithInt t2 n ∧ ∃ m, DecodeBundle Sum256 msg = .ok m ∧ m.Date = n) := by
  obtain ⟨m0, he⟩ := DecodeBundle_shape Sum256 msg b data hform hdec
  rw [he, fields_cons data m0 t0 t1 t2 t3 t4 t5 t6 t7 t8 rest hs]
  simp only [htags, hecho, if_true]
  have hacc : ∀ n, SscanfInt t2 = some n →
      ∃ m, (match SscanfInt t2 with
        | none => (Except.error (Fault.error GoError.scanError) : Except Fault Msg)
        | some date =>
          Except.ok { MsgId := m0.MsgId, Tags := tags, Echo := t1, Date := date, From := t3,
                      Addr := t4, To := t5, Subj := t6,
                      Text := TrimSuffix (bodyLines (Split data NL) 8) [NL] }) = .ok m ∧
        m.Date = n := by
    intro n hn
    rw [hn]
    exact ⟨_, rfl, rfl⟩
  refine ⟨?_, ?_, ?_⟩
  · intro hnb
    rw [(SscanfInt_none_iff t2).mpr hnb]
  · intro n hb
    exact hacc n (SscanfInt_of_begins t2 n hb)
  · intro n tail hn ht2 htail
    have hsc : SscanfInt t2 = some n := by
      rw [ht2]
      exact SscanfInt_Sprint_tail n tail hn htail
    exact ⟨begins_of_SscanfInt t2 n hsc, hacc n hsc⟩

theorem C17_timestamp_witness :
    DecodeBundle zeroSum256 (b64encode stdAlphabet (datePayload (str "abc123"))) =
      .error (.error .scanError) ∧
    DecodeBundle zeroSum256 (b64encode stdAlphabet (datePayload (str "9223372036854775808"))) =
      .error (.error .scanError) ∧
    (∃ m, DecodeBundle zeroSum256 (b64encode stdAlphabet (datePayload (str "  +7 days"))) =
      .ok m ∧ m.Date = 7) ∧
    (BeginsWithInt (str "-1700000000 UTC") (-1700000000) ∧
      ∃ m, DecodeBundle zeroSum256
        (b64encode stdAlphabet (datePayload (str "-1700000000 UTC"))) = .ok m ∧
        m.Date = -1700000000) :=
  ⟨(C17_timestamp zeroSum256 _ _ (datePayload (str "abc123"))
      (str "ii/ok") (str "test.echo") (str "abc123") (str "alice") (str "net/1") (str "bob")
      (str "Hi") [] (str "Body") [] iiOkTags (Or.inl ⟨rfl, by decide⟩)
      (b64decode_b64encode _) (by decide) MakeTags_iiOk (by decide)).1
      ((SscanfInt_none_iff _).mp (by decide)),
   (C17_timestamp zeroSum256 _ _ (datePayload (str "9223372036854775808"))
      (str "ii/ok") (str "test.echo") (str "9223372036854775808") (str "alice") (str "net/1")
      (str "bob") (str "Hi") [] (str "Body") [] iiOkTags (Or.inl ⟨rfl, by decide⟩)
      (b64decode_b64encode _) (by decide) MakeTags_iiOk (by decide)).1
      ((SscanfInt_none_iff _).mp (by decide)),
   (C17_timestamp zeroSum256 _ _ (datePayload (str "  +7 days"))
      (str "ii/ok") (str "test.echo") (str "  +7 days") (str "alice") (str "net/1")
      (str "bob") (str "Hi") [] (str "Body") [] iiOkTags (Or.inl ⟨rfl, by decide⟩)
      (b64decode_b64encode _) (by decide) MakeTags_iiOk (by decide)).2.1 7
      ((SscanfInt_iff _ _).mp (by decide)),
   (C17_timestamp zeroSum256 _ _ (datePayload (str "-1700000000 UTC"))
      (str "ii/ok") (str "test.echo") (str "-1700000000 UTC") (str "alice") (str "net/1")
      (str "bob") (str "Hi") [] (str "Body") [] iiOkTags (Or.inl ⟨rfl, by decide⟩)
      (b64decode_b64encode _) (by decide) MakeTags_iiOk (by decide)).2.2 (-1700000000)
      (str " UTC") (by decide) (by decide) (by decide)⟩

end ii
